import Mathlib

/-!
# run-detectors (binfmt-support): format matching and dispatch

A shallow embedding of `src/run-detectors.c`.

Conventions of the embedding.

* A byte is a natural number below 256; a `char` buffer is a `List Nat`.
* A C string is read from a buffer up to (not including) its first zero
  byte; the end of the list stands for the terminating NUL.  `cstr` gives the
  string stored in a buffer and `strlen` its length.
* An access outside an allocated object is undefined behaviour in C; the
  functions that can perform one return `Option`, with `none` standing for
  "the C program has no defined result on this input".
* The effects of the outside world (detector subprocesses, `execvp`) enter
  through the two oracles of `World`.
-/

namespace RunDetectors

/-! ## C library functions used by the program -/

/-- The C string stored at the start of a buffer: the bytes before the first
NUL. -/
def cstr (b : List Nat) : List Nat := b.takeWhile (fun c => c != 0)

/-- C `strlen`. -/
def strlen (b : List Nat) : Nat := (cstr b).length

/-- C `strcmp (a, b) == 0`. -/
def streq (a b : List Nat) : Bool := cstr a == cstr b

/-- C `isspace` in the "C" locale (the program never calls `setlocale`). -/
def isspace (c : Nat) : Bool := c == 32 || (9 ≤ c && c ≤ 13)

/-- Value of a character as a digit in bases up to 36, as `strtol` reads it. -/
def digitVal (c : Nat) : Option Nat :=
  if 48 ≤ c ∧ c ≤ 57 then some (c - 48)
  else if 97 ≤ c ∧ c ≤ 122 then some (c - 97 + 10)
  else if 65 ≤ c ∧ c ≤ 90 then some (c - 65 + 10)
  else none

/-- Value of `c` as a digit of the given base, if it is one. -/
def digitIn (base c : Nat) : Option Nat :=
  match digitVal c with
  | some d => if d < base then some d else none
  | none => none

/-- The longest run of digits of `base` at the head of `s`: the accumulated
value and the number of digits read. -/
def scanDigits (base : Nat) : List Nat → Nat → Nat × Nat
  | [], acc => (acc, 0)
  | c :: cs, acc =>
    match digitIn base c with
    | some d => ((scanDigits base cs (acc * base + d)).1,
                 (scanDigits base cs (acc * base + d)).2 + 1)
    | none => (acc, 0)

/-- The constant `LONG_MAX` on an LP64 platform. -/
def LONG_MAX : Int := 2 ^ 63 - 1

/-- The constant `LONG_MIN` on an LP64 platform. -/
def LONG_MIN : Int := -(2 ^ 63)

/-- Saturation of an out-of-range `strtol` result. -/
def clampLong (v : Int) : Int :=
  if v > LONG_MAX then LONG_MAX else if v < LONG_MIN then LONG_MIN else v

/-- Number of characters of an optional sign at the head of `s`. -/
def signLen (s : List Nat) : Nat :=
  match s with
  | c :: _ => if c = 45 ∨ c = 43 then 1 else 0
  | [] => 0

/-- Whether the optional sign at the head of `s` is a minus. -/
def signNeg (s : List Nat) : Bool :=
  match s with
  | c :: _ => c == 45
  | [] => false

/-- Number of characters of an optional `0x` / `0X` at the head of `s`, which
`strtol` skips when the base is 16. -/
def hexPrefixLen (base : Nat) (s : List Nat) : Nat :=
  match s with
  | c :: x :: _ => if base = 16 ∧ c = 48 ∧ (x = 120 ∨ x = 88) then 2 else 0
  | _ => 0

/-- C `strtol (s, &end, base)` for a base in 2..36 (glibc): leading white
space, an optional sign, for base 16 an optional `0x`, then the longest run of
digits.  Returns the value and `end - s`, the number of characters consumed.
When no digit is found nothing is consumed, except that after a bare `0x` the
`0` counts as the number and `end` points at the `x`. -/
def strtol (s : List Nat) (base : Nat) : Int × Nat :=
  let ws := (s.takeWhile isspace).length
  let s1 := s.drop ws
  let sg := signLen s1
  let s2 := s1.drop sg
  let pre := hexPrefixLen base s2
  let s3 := s2.drop pre
  let r := scanDigits base s3 0
  if r.2 = 0 then
    (if pre = 2 then (0, ws + sg + 1) else (0, 0))
  else
    (clampLong (if signNeg s1 then -(r.1 : Int) else (r.1 : Int)), ws + sg + pre + r.2)

/-- Conversion of a `long` to `char`, kept as the byte it is stored as. -/
def toChar (v : Int) : Nat := (v % 256).toNat

/-- Conversion of a `long` to `int` (32 bits, two's complement). -/
def toInt32 (v : Int) : Int := (v + 2 ^ 31) % 2 ^ 32 - 2 ^ 31

/-- C `atoi`, which glibc defines as `(int) strtol (s, NULL, 10)`. -/
def atoi (s : List Nat) : Int := toInt32 (strtol s 10).1

/-! ## `expand_hex` -/

/-- The `while (*s)` loop of `expand_hex`, run on the unread rest of the
source.  `s <= *str + len - 4` says that at least four characters remain
before the terminator; `end == s + 4` says that `strtol`, started after the
`\x`, consumed exactly two characters. -/
def expand_hex_loop : List Nat → List Nat
  | [] => []
  | c0 :: tl =>
    if c0 = 0 then []
    else
      match tl with
      | c1 :: c2 :: c3 :: rest =>
        if 4 ≤ strlen (c0 :: c1 :: c2 :: c3 :: rest) ∧ c0 = 92 ∧ c1 = 120
            ∧ (strtol (c2 :: c3 :: rest) 16).2 = 2 then
          toChar (strtol (c2 :: c3 :: rest) 16).1 :: expand_hex_loop rest
        else c0 :: expand_hex_loop (c1 :: c2 :: c3 :: rest)
      | short => c0 :: expand_hex_loop short

/-- The function `expand_hex`: the new contents of `*str` (the bytes written
before the final terminator) and the returned length `p - new`. -/
def expand_hex (str : List Nat) : List Nat × Nat :=
  (expand_hex_loop str, (expand_hex_loop str).length)

/-! ## Format records and the registry -/

/-- The fields of `struct binfmt` that `run-detectors.c` uses.  Before
`load_all_formats` has processed a record, `magic` and `mask` hold the text
read by `binfmt_load`; afterwards they hold the bytes written by `expand_hex`
(the buffer is those bytes followed by a NUL) and `magic_size` is the length
`expand_hex` returned for the magic. -/
structure binfmt where
  type : List Nat
  magic : List Nat
  mask : List Nat
  offset : List Nat
  interpreter : List Nat
  detector : List Nat
  magic_size : Nat
  deriving DecidableEq, Repr

/-- The string literal `"magic"`. -/
def MAGIC : List Nat := [109, 97, 103, 105, 99]

/-- The string literal `"0"`. -/
def ZERO : List Nat := [48]

/-- First byte of the C string in a buffer (`*p`), the terminator when the
string is empty. -/
def deref (b : List Nat) : Nat := b.headD 0

/-- What the body of the `readdir` loop of `load_all_formats` does with one
record returned by `binfmt_load`, once both patterns are expanded and the
record is kept. -/
def normalize (b : binfmt) : binfmt :=
  { b with
    magic := (expand_hex b.magic).1
    magic_size := (expand_hex b.magic).2
    mask := (expand_hex b.mask).1
    offset := if deref b.offset = 0 then ZERO else b.offset }

/-- The function `load_all_formats`, on the records that `binfmt_load` returns
for the directory entries other than `.` and `..`, in `readdir` order. -/
def load_all_formats : List binfmt → List binfmt
  | [] => []
  | b :: rest =>
    if (expand_hex b.mask).2 ≠ 0 ∧ (expand_hex b.mask).2 ≠ (expand_hex b.magic).2 then
      load_all_formats rest
    else normalize b :: load_all_formats rest

/-! ## Sizing and reading the prefix of the target -/

/-- Arithmetic of `size_t` on an LP64 platform. -/
def SIZE_MOD : Nat := 2 ^ 64

/-- Conversion of an `int` to `size_t`. -/
def toSizeT (v : Int) : Nat := (v % (SIZE_MOD : Int)).toNat

/-- The first loop of `main` over `formats`, started with the current value of
`toread`. -/
def toread_loop : List binfmt → Nat → Nat
  | [], toread => toread
  | b :: rest, toread =>
    if streq b.type MAGIC then
      toread_loop rest
        (if (toSizeT (atoi b.offset) + strlen b.magic) % SIZE_MOD > toread
          then (toSizeT (atoi b.offset) + strlen b.magic) % SIZE_MOD else toread)
    else toread_loop rest toread

/-- The value of `toread` after the first loop of `main`. -/
def compute_toread (formats : List binfmt) : Nat := toread_loop formats 0

/-- The buffer after `xzalloc (toread)` and `fread (buf, 1, toread, f)`: the
first `toread` bytes of the file, the unread tail left zero. -/
def read_buf (file : List Nat) (toread : Nat) : List Nat :=
  file.take toread ++ List.replicate (toread - (file.take toread).length) 0

/-! ## Matching -/

/-- The byte at `buf + i`, if that is inside the buffer. -/
def buf_at (buf : List Nat) (i : Int) : Option Nat :=
  if 0 ≤ i then buf[i.toNat]? else none

/-- The object allocated by `xstrndup (buf + off, n)`: at most `n` bytes
copied from `buf + off`, stopping before a NUL, and a terminator.  `none` when
a byte outside `buf` would be read. -/
def xstrndup (buf : List Nat) (off : Int) : Nat → Option (List Nat)
  | 0 => some [0]
  | n + 1 =>
    match buf_at buf off with
    | none => none
    | some c =>
      if c = 0 then some [0]
      else
        match xstrndup buf (off + 1) n with
        | none => none
        | some seg => some (c :: seg)

/-- The loop `for (i = 0; i < toread; ++i) segment[i] &= mask[i]`, with `n`
iterations left from index `i`.  `none` when `segment[i]` or `mask[i]` lies
outside its object. -/
def mask_loop (mask : List Nat) : Nat → Nat → List Nat → Option (List Nat)
  | 0, _, segment => some segment
  | n + 1, i, segment =>
    match segment[i]?, mask[i]? with
    | some s, some m => mask_loop mask n (i + 1) (segment.set i (s &&& m))
    | _, _ => none

/-- C `memcmp (a, b, n) == 0`.  The function may read all `n` bytes of both
objects, so the call is defined only when each object holds at least `n`
bytes; `none` otherwise. -/
def memcmp_eq (a b : List Nat) (n : Nat) : Option Bool :=
  if n ≤ a.length ∧ n ≤ b.length then some (a.take n == b.take n) else none

/-- The `"magic"` branch of the matching loop of `main` for one record. -/
def magic_match (buf : List Nat) (toread : Nat) (b : binfmt) : Option Bool :=
  match xstrndup buf (atoi b.offset) (strlen b.magic) with
  | none => none
  | some segment =>
    match (if deref b.mask ≠ 0 then mask_loop (b.mask ++ [0]) toread 0 segment
           else some segment) with
    | none => none
    | some masked => memcmp_eq masked (b.magic ++ [0]) b.magic_size

/-- C `strrchr (s, c)` for `c` other than NUL: the rest of the string from the
last occurrence of `c` on. -/
def strrchr (s : List Nat) (c : Nat) : Option (List Nat) :=
  match s with
  | [] => none
  | x :: xs =>
    if x = 0 then none
    else
      match strrchr xs c with
      | some r => some r
      | none => if x = c then some (x :: xs) else none

/-- The variable `extension` of `main`: `dot + 1` when the path has a dot,
the null pointer otherwise. -/
def get_extension (path : List Nat) : Option (List Nat) :=
  match strrchr path 46 with
  | some r => some r.tail
  | none => none

/-- The other branch of the matching loop of `main` for one record. -/
def extension_match (extension : Option (List Nat)) (b : binfmt) : Bool :=
  match extension with
  | some e => streq e b.magic
  | none => false

/-- The matching loop of `main`: the list `ok_formats`. -/
def match_loop (buf : List Nat) (toread : Nat) (extension : Option (List Nat)) :
    List binfmt → Option (List binfmt)
  | [] => some []
  | b :: rest =>
    if streq b.type MAGIC then
      match magic_match buf toread b with
      | none => none
      | some ok =>
        match match_loop buf toread extension rest with
        | none => none
        | some l => some (if ok then b :: l else l)
    else
      match match_loop buf toread extension rest with
      | none => none
      | some l => some (if extension_match extension b then b :: l else l)

/-! ## The argument vector -/

/-- The loop `for (i = arg_index; i < argc; ++i) real_argv[i - arg_index + 1]
= argv[i]`, with `n` iterations left from index `i`.  A slot holds `none` for
a null pointer. -/
def copy_args (argv : List (List Nat)) (arg_index : Nat) :
    Nat → Nat → List (Option (List Nat)) → List (Option (List Nat))
  | 0, _, real_argv => real_argv
  | n + 1, i, real_argv =>
    copy_args argv arg_index n (i + 1) (real_argv.set (i - arg_index + 1) argv[i]?)

/-- The array `real_argv` after lines 242-245 of `main`: `xcalloc` gives
`argc - arg_index + 2` null slots, the loop fills slots 1 .. `argc -
arg_index`, and the last slot is set to null. -/
def build_real_argv (argv : List (List Nat)) (arg_index : Nat) : List (Option (List Nat)) :=
  (copy_args argv arg_index (argv.length - arg_index) arg_index
      (List.replicate (argv.length - arg_index + 2) none)).set
    (argv.length - arg_index + 1) none

/-- The argument vector that `execvp` reads from an array: the entries before
the first null pointer. -/
def exec_vector : List (Option (List Nat)) → List (List Nat)
  | some a :: rest => a :: exec_vector rest
  | _ => []

/-! ## Dispatch -/

/-- The outside world as far as dispatch depends on it: the exit status
`pipeline_run` reports for a detector command run on the target, and whether
`execvp` of an interpreter with an argument vector replaces the process (if it
does, it never returns). -/
structure World where
  pipeline_run : List Nat → List Nat → Int
  execvp : List Nat → List (List Nat) → Bool

/-- The externally visible steps of dispatch. -/
inductive Event where
  | detector (command target : List Nat)
  | exec (interpreter : List Nat) (args : List (List Nat))
  deriving DecidableEq, Repr

/-- How `main` ends. -/
inductive Ending where
  | replaced
  | no_interpreter
  | argument_required
  | cannot_open
  deriving DecidableEq, Repr

/-- One attempt `real_argv[0] = interpreter; execvp (interpreter, real_argv)`:
the vector handed to `execvp`. -/
def exec_args (real_argv : List (Option (List Nat))) (b : binfmt) : List (List Nat) :=
  exec_vector (real_argv.set 0 (some b.interpreter))

/-- The first loop over `ok_formats` (candidates with a detector): the events
it performs and whether an `execvp` replaced the process. -/
def detector_pass (w : World) (target : List Nat) (real_argv : List (Option (List Nat))) :
    List binfmt → List Event × Bool
  | [] => ([], false)
  | b :: rest =>
    if deref b.detector ≠ 0 then
      if w.pipeline_run b.detector target = 0 then
        if w.execvp b.interpreter (exec_args real_argv b) then
          ([Event.detector b.detector target,
            Event.exec b.interpreter (exec_args real_argv b)], true)
        else
          (Event.detector b.detector target
            :: Event.exec b.interpreter (exec_args real_argv b)
            :: (detector_pass w target real_argv rest).1,
           (detector_pass w target real_argv rest).2)
      else
        (Event.detector b.detector target :: (detector_pass w target real_argv rest).1,
         (detector_pass w target real_argv rest).2)
    else detector_pass w target real_argv rest

/-- The second loop over `ok_formats` (candidates without a detector). -/
def plain_pass (w : World) (real_argv : List (Option (List Nat))) :
    List binfmt → List Event × Bool
  | [] => ([], false)
  | b :: rest =>
    if deref b.detector = 0 then
      if w.execvp b.interpreter (exec_args real_argv b) then
        ([Event.exec b.interpreter (exec_args real_argv b)], true)
      else
        (Event.exec b.interpreter (exec_args real_argv b) :: (plain_pass w real_argv rest).1,
         (plain_pass w real_argv rest).2)
    else plain_pass w real_argv rest

/-- Lines 247-281 of `main`: both passes over `ok_formats`, then `quit
("unable to find an interpreter for %s")` if no `execvp` succeeded. -/
def dispatch (w : World) (target : List Nat) (real_argv : List (Option (List Nat)))
    (ok_formats : List binfmt) : List Event × Ending :=
  if (detector_pass w target real_argv ok_formats).2 then
    ((detector_pass w target real_argv ok_formats).1, Ending.replaced)
  else if (plain_pass w real_argv ok_formats).2 then
    ((detector_pass w target real_argv ok_formats).1 ++ (plain_pass w real_argv ok_formats).1,
     Ending.replaced)
  else
    ((detector_pass w target real_argv ok_formats).1 ++ (plain_pass w real_argv ok_formats).1,
     Ending.no_interpreter)

/-- The function `main` after option parsing: `loaded` are the records
`binfmt_load` returns for the administration directory, `file` is the content
of the target (`none` if it cannot be opened).  `none` when the run has
undefined behaviour. -/
def main (w : World) (loaded : List binfmt) (argv : List (List Nat)) (arg_index : Nat)
    (file : Option (List Nat)) : Option (List Event × Ending) :=
  match argv[arg_index]? with
  | none => some ([], Ending.argument_required)
  | some target =>
    match file with
    | none => some ([], Ending.cannot_open)
    | some content =>
      match match_loop (read_buf content (compute_toread (load_all_formats loaded)))
          (compute_toread (load_all_formats loaded)) (get_extension target)
          (load_all_formats loaded) with
      | none => none
      | some ok_formats => some (dispatch w target (build_real_argv argv arg_index) ok_formats)

/-- The `execvp` attempts recorded in a sequence of events, in order. -/
def exec_attempts : List Event → List (List Nat × List (List Nat))
  | [] => []
  | Event.exec i a :: rest => (i, a) :: exec_attempts rest
  | Event.detector _ _ :: rest => exec_attempts rest

/-! ## The order of dispatch, stated on lists -/

/-- A candidate of the first pass whose detector reports success. -/
def gated_ok (w : World) (target : List Nat) (b : binfmt) : Bool :=
  deref b.detector != 0 && w.pipeline_run b.detector target == 0

/-- A candidate of the second pass. -/
def detector_free (b : binfmt) : Bool := deref b.detector == 0

/-- Whether `execvp` succeeds for a candidate. -/
def exec_ok (w : World) (real_argv : List (Option (List Nat))) (b : binfmt) : Bool :=
  w.execvp b.interpreter (exec_args real_argv b)

/-- The interpreter and argument vector of the attempt made for a candidate. -/
def attempt_of (real_argv : List (Option (List Nat))) (b : binfmt) :
    List Nat × List (List Nat) :=
  (b.interpreter, exec_args real_argv b)

/-- The elements of a list up to and including the first one that satisfies
`p` (all of them if none does). -/
def takeThrough {α : Type} (p : α → Bool) : List α → List α
  | [] => []
  | x :: xs => if p x then [x] else x :: takeThrough p xs

/-- The candidates in the order in which dispatch considers them for
`execvp`: those with a detector that exits 0, then those without a
detector. -/
def exec_order (w : World) (target : List Nat) (ok_formats : List binfmt) : List binfmt :=
  ok_formats.filter (gated_ok w target) ++ ok_formats.filter detector_free

/-! ## Writing bytes as escapes -/

/-- The character for the hexadecimal digit `d`, in upper or lower case. -/
def hexDigitChar (upper : Bool) (d : Nat) : Nat :=
  if d < 10 then 48 + d else if upper then 55 + d else 87 + d

/-- A byte written as an escape: backslash, `x` and two hexadecimal digits. -/
def escape (x : Nat × Bool × Bool) : List Nat :=
  [92, 120, hexDigitChar x.2.1 (x.1 / 16), hexDigitChar x.2.2 (x.1 % 16)]

/-- A sequence of bytes written as escapes, each digit in its own case. -/
def escape_all : List (Nat × Bool × Bool) → List Nat
  | [] => []
  | x :: rest => escape x ++ escape_all rest

/-- The head of `s` is not a hexadecimal digit (or `s` is empty). -/
def stopsHex (s : List Nat) : Prop := ∀ c t, s = c :: t → digitIn 16 c = none

/-! ## Example inputs -/

/-- The path `/bin/sh`. -/
def BIN_SH : List Nat := [47, 98, 105, 110, 47, 115, 104]

/-- The path `/d`, used as a detector. -/
def DET : List Nat := [47, 100]

/-- The path `/a`, used as an interpreter. -/
def INT_A : List Nat := [47, 97]

/-- The path `/b`, used as an interpreter. -/
def INT_B : List Nat := [47, 98]

/-- A candidate with detector `/d` and interpreter `/a`. -/
def ex_gated : binfmt := ⟨MAGIC, [35, 33], [], ZERO, INT_A, DET, 2⟩

/-- A candidate without detector, with interpreter `/b`. -/
def ex_free : binfmt := ⟨MAGIC, [35, 33], [], ZERO, INT_B, [], 2⟩

/-- A world in which every detector exits with status 1 and every `execvp`
succeeds. -/
def world_det_fails : World := ⟨fun _ _ => 1, fun _ _ => true⟩

/-- The string literal `"extension"`. -/
def EXTENSION : List Nat := [101, 120, 116, 101, 110, 115, 105, 111, 110]

/-- The text `jar`. -/
def JAR : List Nat := [106, 97, 114]

/-- The path `foo.jar`. -/
def FOO_JAR : List Nat := [102, 111, 111, 46, 106, 97, 114]

/-- The path `foo`. -/
def FOO : List Nat := [102, 111, 111]

/-- A loaded record of type `magic` with the given magic, mask and
interpreter, empty offset and no detector. -/
def magic_record (magic mask interpreter : List Nat) : binfmt :=
  ⟨MAGIC, magic, mask, [], interpreter, [], 0⟩

/-- A loaded record of type `magic` with the given magic and offset, no mask
and no detector. -/
def magic_record_at (magic offset : List Nat) : binfmt :=
  ⟨MAGIC, magic, [], offset, INT_A, [], 0⟩

/-- A loaded record of type `extension` with the given pattern. -/
def extension_record (pattern : List Nat) : binfmt :=
  ⟨EXTENSION, pattern, [], [], INT_A, [], 0⟩

/-- Loaded record: magic `\x01\x00`, no mask. -/
def ex_nul_magic : binfmt := magic_record [92, 120, 48, 49, 92, 120, 48, 48] [] INT_A

/-- Loaded record: magic `abcd`, no mask. -/
def ex_abcd : binfmt := magic_record [97, 98, 99, 100] [] INT_B

/-- Loaded record: magic `\x10\x00`, mask `\xf0\xf0`. -/
def ex_nul_masked : binfmt :=
  magic_record [92, 120, 49, 48, 92, 120, 48, 48] [92, 120, 102, 48, 92, 120, 102, 48] INT_A

/-- Loaded record: magic `ab`, no mask. -/
def ex_ab : binfmt := magic_record [97, 98] [] INT_B

/-- Loaded record: magic `\x10\x20`, mask `\xf0\xf0`. -/
def ex_masked : binfmt :=
  magic_record [92, 120, 49, 48, 92, 120, 50, 48] [92, 120, 102, 48, 92, 120, 102, 48] INT_A

/-- Loaded record: magic `\x7f\x45\x4c\x46` (the four bytes of the ELF
magic), no mask. -/
def ex_elf : binfmt :=
  magic_record [92, 120, 55, 102, 92, 120, 52, 53, 92, 120, 52, 99, 92, 120, 52, 54] [] INT_A

/-- Loaded record: magic `\x00\x00\x01\x00`, no mask. -/
def ex_ico : binfmt :=
  magic_record [92, 120, 48, 48, 92, 120, 48, 48, 92, 120, 48, 49, 92, 120, 48, 48] [] INT_A

/-- Loaded record: magic `\x23\x21`, interpreter `/bin/sh`. -/
def ex_sh : binfmt := magic_record [92, 120, 50, 51, 92, 120, 50, 49] [] BIN_SH

/-- Loaded record of type `extension` with pattern `jar`. -/
def ex_jar : binfmt := extension_record JAR

/-- Loaded record of type `extension` with pattern `jar\x00`. -/
def ex_jar_nul : binfmt := extension_record [106, 97, 114, 92, 120, 48, 48]

/-- Loaded record: magic `abcd`, mask `\xff\xff` (two bytes for a four-byte
magic). -/
def ex_bad_mask : binfmt :=
  magic_record [97, 98, 99, 100] [92, 120, 102, 102, 92, 120, 102, 102] INT_A

/-- The text `\x7fELF`. -/
def TEXT_7F_ELF : List Nat := [92, 120, 55, 102, 69, 76, 70]

/-- The command line `run-detectors t a b`. -/
def ex_argv : List (List Nat) := [[114], [116], [97], [98]]

/-- A world in which every detector and every `execvp` fails. -/
def world_all_fail : World := ⟨fun _ _ => 1, fun _ _ => false⟩

/-- Whether `load_all_formats` keeps a record: its decoded mask length is zero
or equal to its decoded magic length. -/
def mask_fits (b : binfmt) : Bool :=
  (expand_hex b.mask).2 == 0 || (expand_hex b.mask).2 == (expand_hex b.magic).2

/-! ## Counting and locating escapes -/

/-- The number of times the loop of `expand_hex` takes the branch that emits
one byte and advances four characters (`s += 4`); the structure is that of
`expand_hex_loop`. -/
def expand_hex_escapes : List Nat → Nat
  | [] => 0
  | c0 :: tl =>
    if c0 = 0 then 0
    else
      match tl with
      | c1 :: c2 :: c3 :: rest =>
        if 4 ≤ strlen (c0 :: c1 :: c2 :: c3 :: rest) ∧ c0 = 92 ∧ c1 = 120
            ∧ (strtol (c2 :: c3 :: rest) 16).2 = 2 then
          expand_hex_escapes rest + 1
        else expand_hex_escapes (c1 :: c2 :: c3 :: rest)
      | short => expand_hex_escapes short

/-- The text `\x 4`: backslash, `x`, a space and the digit 4. -/
def TEXT_X_SPACE_4 : List Nat := [92, 120, 32, 52]

/-- The text `\x-4`: backslash, `x`, a minus sign and the digit 4. -/
def TEXT_X_MINUS_4 : List Nat := [92, 120, 45, 52]

/-- The text `\x+4`: backslash, `x`, a plus sign and the digit 4. -/
def TEXT_X_PLUS_4 : List Nat := [92, 120, 43, 52]

/-- The text `a\b.x`, in which no backslash is followed by `x`. -/
def TEXT_NO_ESCAPE : List Nat := [97, 92, 98, 46, 120]

/-- One decoding of a text: the buffer `expand_hex` leaves in `*str`. -/
def decode (str : List Nat) : List Nat := (expand_hex str).1

/-- The text `ab\x4`. -/
def TEXT_AB_X4 : List Nat := [97, 98, 92, 120, 52]

/-! ## Byte-wise matching, as the specification states it -/

/-- The comparison the specification describes for a record without mask: the
`magic.length` bytes of `buf` starting at `off` are byte-for-byte equal to the
magic. -/
def bytewise_match (buf : List Nat) (off : Nat) (magic : List Nat) : Bool :=
  (buf.drop off).take magic.length == magic

/-! ## The indices visited by the masking loop -/

/-- The values of `i` for which the body `segment[i] &= mask[i]` of the
masking loop is entered, in order, up to and including the first one at which
`segment[i]` or `mask[i]` lies outside its object; the structure is that of
`mask_loop`. -/
def mask_loop_indices (mask : List Nat) : Nat → Nat → List Nat → List Nat
  | 0, _, _ => []
  | n + 1, i, segment =>
    match segment[i]?, mask[i]? with
    | some s, some m => i :: mask_loop_indices mask n (i + 1) (segment.set i (s &&& m))
    | _, _ => [i]

/-- Loaded record: magic `\x01\x00\x02`, no mask. -/
def ex_nul_mid : binfmt :=
  magic_record [92, 120, 48, 49, 92, 120, 48, 48, 92, 120, 48, 50] [] INT_A

/-- Loaded record: magic `abc`, no mask. -/
def ex_abc : binfmt := magic_record [97, 98, 99] [] INT_B

/-- Loaded record: magic `abcdefgh`, no mask. -/
def ex_long : binfmt := magic_record [97, 98, 99, 100, 101, 102, 103, 104] [] INT_B

/-! # Theorems -/

/-! ## The pattern codec -/

theorem digitIn_hexDigitChar (u : Bool) (d : Nat) (h : d < 16) :
    digitIn 16 (hexDigitChar u d) = some d := by
  revert u d
  decide

theorem digitIn_some_bounds {c d : Nat} (h : digitIn 16 c = some d) :
    d < 16 ∧ c ≠ 0 ∧ isspace c = false ∧ c ≠ 45 ∧ c ≠ 43 ∧ c ≠ 120 ∧ c ≠ 88 := by
  unfold digitIn digitVal at h
  unfold isspace
  split_ifs at h <;> simp at h <;> (obtain ⟨h1, h2⟩ := h; subst h2) <;>
    (refine ⟨h1, ?_, ?_, ?_, ?_, ?_, ?_⟩ <;> simp <;> omega)

theorem scanDigits_stop (s : List Nat) (acc : Nat) (h : stopsHex s) :
    scanDigits 16 s acc = (acc, 0) := by
  cases s with
  | nil => rfl
  | cons c t => simp [scanDigits, h c t rfl]

theorem clampLong_small (v : Nat) (h : v < 256) : clampLong (v : Int) = (v : Int) := by
  unfold clampLong LONG_MAX LONG_MIN
  rw [if_neg (by norm_num; omega), if_neg (by norm_num; omega)]

theorem toChar_small (v : Nat) (h : v < 256) : toChar (v : Int) = v := by
  unfold toChar
  have : ((v : Int) % 256) = (v : Int) := Int.emod_eq_of_lt (by omega) (by omega)
  rw [this]; simp

/-- Two hexadecimal digits followed by something that is not one: `strtol`
reads the two-digit number and stops after exactly two characters. -/
theorem strtol_two_hex {h1 h2 d1 d2 : Nat} {tail : List Nat}
    (e1 : digitIn 16 h1 = some d1) (e2 : digitIn 16 h2 = some d2) (ht : stopsHex tail) :
    strtol (h1 :: h2 :: tail) 16 = (((16 * d1 + d2 : Nat) : Int), 2) := by
  obtain ⟨b1, n1, s1, m1, p1, _, _⟩ := digitIn_some_bounds e1
  obtain ⟨b2, n2, s2, m2, p2, x2, y2⟩ := digitIn_some_bounds e2
  have hws : List.takeWhile isspace (h1 :: h2 :: tail) = [] := by
    simp [List.takeWhile, s1]
  have hsg : signLen (h1 :: h2 :: tail) = 0 := by simp [signLen, m1, p1]
  have hneg : signNeg (h1 :: h2 :: tail) = false := by simp [signNeg, m1]
  have hpre : hexPrefixLen 16 (h1 :: h2 :: tail) = 0 := by simp [hexPrefixLen, x2, y2]
  have hscan : scanDigits 16 (h1 :: h2 :: tail) 0 = (16 * d1 + d2, 2) := by
    simp [scanDigits, e1, e2, scanDigits_stop tail _ ht]
    omega
  unfold strtol
  simp only [hws, List.length_nil, List.drop_zero, hsg, hneg, hpre, hscan]
  simp
  have hb : 16 * d1 + d2 < 256 := by omega
  have := clampLong_small _ hb
  simpa using this

theorem strlen_four_le {c0 c1 c2 c3 : Nat} (rest : List Nat)
    (n0 : c0 ≠ 0) (n1 : c1 ≠ 0) (n2 : c2 ≠ 0) (n3 : c3 ≠ 0) :
    4 ≤ strlen (c0 :: c1 :: c2 :: c3 :: rest) := by
  simp [strlen, cstr, List.takeWhile_cons, n0, n1, n2, n3]

/-- One step of the loop at a well-formed escape that is not followed by a
further hexadecimal digit. -/
theorem expand_hex_loop_escape {h1 h2 d1 d2 : Nat} {tail : List Nat}
    (e1 : digitIn 16 h1 = some d1) (e2 : digitIn 16 h2 = some d2) (ht : stopsHex tail) :
    expand_hex_loop (92 :: 120 :: h1 :: h2 :: tail) = (16 * d1 + d2) :: expand_hex_loop tail := by
  obtain ⟨b1, n1, -⟩ := digitIn_some_bounds e1
  obtain ⟨b2, n2, -⟩ := digitIn_some_bounds e2
  have hlen := strlen_four_le tail (by decide : (92 : Nat) ≠ 0) (by decide : (120 : Nat) ≠ 0) n1 n2
  have hst := strtol_two_hex e1 e2 ht
  have hb : 16 * d1 + d2 < 256 := by omega
  rw [expand_hex_loop]
  simp only [hst, hlen]
  simp
  simpa using toChar_small _ hb

theorem stopsHex_escape_all (l : List (Nat × Bool × Bool)) : stopsHex (escape_all l) := by
  intro c t h
  cases l with
  | nil => simp [escape_all] at h
  | cons x rest =>
    simp [escape_all, escape] at h
    rw [← h.1]
    decide

theorem expand_hex_loop_escape_all (l : List (Nat × Bool × Bool))
    (h : ∀ x ∈ l, x.1 < 256) : expand_hex_loop (escape_all l) = l.map (fun x => x.1) := by
  induction l with
  | nil => rfl
  | cons x rest ih =>
    have hx : x.1 < 256 := h x (List.mem_cons_self _ _)
    have e1 := digitIn_hexDigitChar x.2.1 (x.1 / 16) (by omega)
    have e2 := digitIn_hexDigitChar x.2.2 (x.1 % 16) (by omega)
    have step := expand_hex_loop_escape e1 e2 (stopsHex_escape_all rest)
    have ih' := ih (fun y hy => h y (List.mem_cons_of_mem _ hy))
    simp only [escape_all, escape, List.cons_append, List.nil_append, List.map_cons]
    rw [step, ih']
    congr 1
    omega

/-- C10 (escape round trip).  For every sequence of bytes, written as text
with one `\xHH` escape per byte (each hexadecimal digit in upper or lower
case), `expand_hex` produces exactly that sequence of bytes and returns its
length. -/
theorem expand_hex_escape_all (l : List (Nat × Bool × Bool)) (h : ∀ x ∈ l, x.1 < 256) :
    expand_hex (escape_all l) = (l.map (fun x => x.1), l.length) := by
  simp [expand_hex, expand_hex_loop_escape_all l h]

/-- The text `\x41\x42` decodes to the two bytes `0x41, 0x42`. -/
theorem expand_hex_escape_all_witness :
    (∀ x ∈ [((0x41 : Nat), false, false), (0x42, true, true)], x.1 < 256) ∧
    escape_all [(0x41, false, false), (0x42, true, true)]
      = [92, 120, 52, 49, 92, 120, 52, 50] ∧
    expand_hex [92, 120, 52, 49, 92, 120, 52, 50] = ([0x41, 0x42], 2) :=
  ⟨by decide, by decide,
   expand_hex_escape_all [(0x41, false, false), (0x42, true, true)] (by decide)⟩

/-! ## Matching against magic bytes -/

/-- C1 (magic matching without a mask).  Registry built from the records with
magic `\x01\x00` and `abcd`, both at offset 0 and without mask; target file
beginning with the bytes 1, 5, 7, 7.  `toread` is 4 and the buffer holds those
four bytes.  The first record (decoded pattern `{1, 0}`, `pattern_length` 2) is
put in the candidate list, although the two bytes of the buffer at its offset
are `{1, 5}`: `xstrndup` copies only `strlen (magic) = 1` byte and the
terminator it appends compares equal to the second pattern byte; the run ends
with the exec of that record's interpreter.  (The zero-free ELF pattern of
the spec's example is matched as the claim says.) -/
theorem magic_match_nul_in_pattern :
    load_all_formats [ex_nul_magic, ex_abcd] = [normalize ex_nul_magic, normalize ex_abcd] ∧
    (normalize ex_nul_magic).magic = [1, 0] ∧
    (normalize ex_nul_magic).magic_size = 2 ∧
    (normalize ex_nul_magic).mask = [] ∧
    atoi (normalize ex_nul_magic).offset = 0 ∧
    compute_toread (load_all_formats [ex_nul_magic, ex_abcd]) = 4 ∧
    read_buf [1, 5, 7, 7] 4 = [1, 5, 7, 7] ∧
    xstrndup [1, 5, 7, 7] 0 (strlen (normalize ex_nul_magic).magic) = some [1, 0] ∧
    magic_match [1, 5, 7, 7] 4 (normalize ex_nul_magic) = some true ∧
    match_loop [1, 5, 7, 7] 4 none (load_all_formats [ex_nul_magic, ex_abcd])
      = some [normalize ex_nul_magic] ∧
    ([1, 5, 7, 7].drop 0).take 2 ≠ (normalize ex_nul_magic).magic ∧
    main world_det_fails [ex_nul_magic, ex_abcd] ex_argv 1 (some [1, 5, 7, 7])
      = some ([Event.exec INT_A [INT_A, [116], [97], [98]]], Ending.replaced) ∧
    (normalize ex_elf).magic = [0x7F, 0x45, 0x4C, 0x46] ∧
    magic_match [0x7F, 0x45, 0x4C, 0x46] 4 (normalize ex_elf) = some true ∧
    magic_match [0x7F, 0x45, 0x4C, 0x47] 4 (normalize ex_elf) = some false := by
  decide

/-- C2 (masked magic matching).  Registry built from the records with magic
`\x10\x00`, mask `\xf0\xf0` and magic `ab`, both at offset 0; target file
beginning with the bytes `0x1A, 0xFF`.  `toread` is 2.  The masked record
(decoded pattern `{0x10, 0}`) is put in the candidate list, although
`0xFF AND 0xF0` is `0xF0`, not the pattern byte 0: the segment extracted by
`xstrndup` holds one byte of the file and a terminator.  (The zero-free
pattern `{0x10, 0x20}` of the spec's example is matched as the claim says when
`toread` is 2.) -/
theorem masked_match_nul_in_pattern :
    load_all_formats [ex_nul_masked, ex_ab] = [normalize ex_nul_masked, normalize ex_ab] ∧
    (normalize ex_nul_masked).magic = [0x10, 0] ∧
    (normalize ex_nul_masked).mask = [0xF0, 0xF0] ∧
    (normalize ex_nul_masked).magic_size = 2 ∧
    atoi (normalize ex_nul_masked).offset = 0 ∧
    compute_toread (load_all_formats [ex_nul_masked, ex_ab]) = 2 ∧
    read_buf [0x1A, 0xFF] 2 = [0x1A, 0xFF] ∧
    xstrndup [0x1A, 0xFF] 0 (strlen (normalize ex_nul_masked).magic) = some [0x1A, 0] ∧
    magic_match [0x1A, 0xFF] 2 (normalize ex_nul_masked) = some true ∧
    match_loop [0x1A, 0xFF] 2 none (load_all_formats [ex_nul_masked, ex_ab])
      = some [normalize ex_nul_masked] ∧
    (0xFF &&& 0xF0 : Nat) ≠ 0 ∧
    (normalize ex_masked).magic = [0x10, 0x20] ∧
    (normalize ex_masked).mask = [0xF0, 0xF0] ∧
    magic_match [0x1A, 0x2B] 2 (normalize ex_masked) = some true ∧
    magic_match [0x2A, 0x2B] 2 (normalize ex_masked) = some false := by
  decide

/-- C3 (every well-formed escape is decoded).  On the text `\x7fELF` the scan
starts at a backslash, `x` and the two hexadecimal digits `7f`, with seven
characters remaining; `strtol` reads the three digits `7fE`, so `end` is
`s + 5`, the escape is not decoded and `expand_hex` returns the seven
characters unchanged instead of the four bytes `0x7f, E, L, F`. -/
theorem expand_hex_escape_before_hex_digit :
    TEXT_7F_ELF = [92, 120, 55, 102, 69, 76, 70] ∧
    digitIn 16 55 = some 7 ∧ digitIn 16 102 = some 15 ∧ digitIn 16 69 = some 14 ∧
    strtol [55, 102, 69, 76, 70] 16 = (0x7fe, 3) ∧
    expand_hex TEXT_7F_ELF = (TEXT_7F_ELF, 7) ∧
    expand_hex TEXT_7F_ELF ≠ ([0x7f, 69, 76, 70], 4) := by
  decide

/-- C5 (prefix sizing).  For the registry built from the single record with
magic `\x00\x00\x01\x00` at offset 0, the codec reports `pattern_length` 4, so
the maximum of `offset + pattern_length` is 4, but `toread` is 0: the loop
adds `strlen (magic)`, which stops at the first zero byte of the decoded
magic.  (For records at offsets 0, 4, 8 whose decoded magic is four non-zero
bytes, `toread` is 12.) -/
theorem toread_strlen_of_decoded_magic :
    load_all_formats [ex_ico] = [normalize ex_ico] ∧
    streq (normalize ex_ico).type MAGIC = true ∧
    (normalize ex_ico).magic = [0, 0, 1, 0] ∧
    (normalize ex_ico).magic_size = 4 ∧
    atoi (normalize ex_ico).offset = 0 ∧
    strlen (normalize ex_ico).magic = 0 ∧
    compute_toread (load_all_formats [ex_ico]) = 0 ∧
    compute_toread (load_all_formats
      [magic_record_at [97, 98, 99, 100] [48], magic_record_at [97, 98, 99, 100] [52],
       magic_record_at [97, 98, 99, 100] [56]]) = 12 := by
  decide

/-! ## The registry -/

theorem load_all_formats_eq (loaded : List binfmt) :
    load_all_formats loaded = (loaded.filter mask_fits).map normalize := by
  induction loaded with
  | nil => rfl
  | cons b rest ih =>
    by_cases h : (expand_hex b.mask).2 ≠ 0 ∧ (expand_hex b.mask).2 ≠ (expand_hex b.magic).2
    · have hf : mask_fits b = false := by simp [mask_fits, h.1, h.2]
      rw [load_all_formats, if_pos h, ih, List.filter_cons_of_neg (by simp [hf])]
    · have hf : mask_fits b = true := by
        simp only [mask_fits, Bool.or_eq_true, beq_iff_eq]
        by_cases h0 : (expand_hex b.mask).2 = 0
        · exact Or.inl h0
        · exact Or.inr (by_contra fun hne => h ⟨h0, hne⟩)
      rw [load_all_formats, if_neg h, ih, List.filter_cons_of_pos hf, List.map_cons]

/-- C6 (registry filtering).  The registry built by `load_all_formats` is the
list of the loaded records whose decoded mask length is zero or equal to the
decoded magic length, in the original order, each with its patterns decoded
and its offset defaulted.  So a record with an empty decoded mask is always
kept, and a discarded record does not stop the scan: the records before and
after it are treated as if it were not there. -/
theorem load_all_formats_filter (loaded : List binfmt) :
    load_all_formats loaded = (loaded.filter mask_fits).map normalize ∧
    (∀ b ∈ loaded, (expand_hex b.mask).2 = 0 → normalize b ∈ load_all_formats loaded) ∧
    (∀ pre b post, loaded = pre ++ b :: post →
      (expand_hex b.mask).2 ≠ 0 → (expand_hex b.mask).2 ≠ (expand_hex b.magic).2 →
      load_all_formats loaded = load_all_formats pre ++ load_all_formats post) := by
  refine ⟨load_all_formats_eq loaded, ?_, ?_⟩
  · intro b hb h0
    rw [load_all_formats_eq]
    exact List.mem_map.mpr ⟨b, List.mem_filter.mpr ⟨hb, by simp [mask_fits, h0]⟩, rfl⟩
  · intro pre b post hl h0 hne
    have hf : mask_fits b = false := by simp [mask_fits, h0, hne]
    rw [hl, load_all_formats_eq, load_all_formats_eq pre, load_all_formats_eq post,
      List.filter_append, List.filter_cons_of_neg (by simp [hf]), List.map_append]

/-- A record whose two-byte mask does not fit its four-byte magic, between two
records without mask: the registry holds the two others, in order. -/
theorem load_all_formats_filter_witness :
    load_all_formats [ex_abcd, ex_bad_mask, ex_ab] = [normalize ex_abcd, normalize ex_ab] ∧
    normalize ex_ab ∈ load_all_formats [ex_abcd, ex_bad_mask, ex_ab] ∧
    load_all_formats [ex_abcd, ex_bad_mask, ex_ab]
      = load_all_formats [ex_abcd] ++ load_all_formats [ex_ab] :=
  ⟨(load_all_formats_filter [ex_abcd, ex_bad_mask, ex_ab]).1.trans (by decide),
   (load_all_formats_filter [ex_abcd, ex_bad_mask, ex_ab]).2.1 ex_ab (by decide) (by decide),
   (load_all_formats_filter [ex_abcd, ex_bad_mask, ex_ab]).2.2 [ex_abcd] ex_bad_mask [ex_ab]
     (by decide) (by decide) (by decide)⟩

/-! ## Matching by extension -/

theorem cstr_cons_ne_zero {x : Nat} (xs : List Nat) (h : x ≠ 0) :
    cstr (x :: xs) = x :: cstr xs := by
  simp [cstr, List.takeWhile_cons, h]

theorem cstr_cons_zero (xs : List Nat) : cstr (0 :: xs) = [] := by
  simp [cstr, List.takeWhile_cons]

theorem strrchr_none {c : Nat} : ∀ (s : List Nat), strrchr s c = none → c ∉ cstr s := by
  intro s
  induction s with
  | nil => intro _; simp [cstr]
  | cons x xs ih =>
    intro h
    rw [strrchr] at h
    by_cases hx : x = 0
    · subst hx; simp [cstr_cons_zero]
    · rw [if_neg hx] at h
      rw [cstr_cons_ne_zero xs hx]
      cases hr : strrchr xs c with
      | some r => rw [hr] at h; simp at h
      | none =>
        rw [hr] at h
        by_cases hc : x = c
        · simp [hc] at h
        · simp only [List.mem_cons, not_or]
          exact ⟨fun e => hc e.symm, ih hr⟩

theorem strrchr_some {c : Nat} : ∀ (s r : List Nat), strrchr s c = some r →
    ∃ pre, cstr s = pre ++ c :: cstr r.tail ∧ c ∉ cstr r.tail := by
  intro s
  induction s with
  | nil => intro r h; simp [strrchr] at h
  | cons x xs ih =>
    intro r h
    rw [strrchr] at h
    by_cases hx : x = 0
    · simp [hx] at h
    · rw [if_neg hx] at h
      rw [cstr_cons_ne_zero xs hx]
      cases hr : strrchr xs c with
      | some r' =>
        rw [hr] at h
        simp only [Option.some.injEq] at h
        subst h
        obtain ⟨pre, hpre, hnot⟩ := ih r' hr
        exact ⟨x :: pre, by rw [hpre]; rfl, hnot⟩
      | none =>
        rw [hr] at h
        by_cases hc : x = c
        · simp only [hc, if_true, Option.some.injEq] at h
          subst h
          exact ⟨[], by simp [hc], strrchr_none xs hr⟩
        · simp [hc] at h

theorem last_split_unique {c : Nat} : ∀ (pre pre' ext ext' : List Nat),
    pre ++ c :: ext = pre' ++ c :: ext' → c ∉ ext → c ∉ ext' → ext = ext' := by
  intro pre
  induction pre with
  | nil =>
    intro pre' ext ext' h h1 _
    cases pre' with
    | nil => simpa using h
    | cons y ys =>
      simp only [List.nil_append, List.cons_append, List.cons.injEq] at h
      exact absurd (by rw [h.2]; simp) h1
  | cons a as ih =>
    intro pre' ext ext' h h1 h2
    cases pre' with
    | nil =>
      simp only [List.nil_append, List.cons_append, List.cons.injEq] at h
      exact absurd (by rw [← h.2]; simp) h2
    | cons y ys =>
      simp only [List.cons_append, List.cons.injEq] at h
      exact ih ys ext ext' h.2 h1 h2

/-- C7 (extension matching, as the code decides it).  For every target path
and every record, the extension branch of the matching loop accepts the record
if and only if the path contains a `.` and the text after its last `.` equals
the record's decoded pattern read as a C string, that is up to its first zero
byte; this is the whole pattern when the pattern has no zero byte.  A path
without `.` is accepted for no record. -/
theorem extension_match_iff (path : List Nat) (b : binfmt) :
    (extension_match (get_extension path) b = true ↔
      ∃ pre ext, cstr path = pre ++ 46 :: ext ∧ 46 ∉ ext ∧ ext = cstr b.magic) ∧
    (0 ∉ b.magic →
      (extension_match (get_extension path) b = true ↔
        ∃ pre ext, cstr path = pre ++ 46 :: ext ∧ 46 ∉ ext ∧ ext = b.magic)) ∧
    (46 ∉ cstr path → extension_match (get_extension path) b = false) := by
  have key : extension_match (get_extension path) b = true ↔
      ∃ pre ext, cstr path = pre ++ 46 :: ext ∧ 46 ∉ ext ∧ ext = cstr b.magic := by
    unfold get_extension
    cases hr : strrchr path 46 with
    | none =>
      have hn := strrchr_none path hr
      simp only [extension_match, Bool.false_eq_true, false_iff, not_exists, not_and]
      intro pre ext hp
      exact absurd (by rw [hp]; simp) hn
    | some r =>
      obtain ⟨pre, hpre, hnot⟩ := strrchr_some path r hr
      simp only [extension_match, streq, beq_iff_eq]
      constructor
      · intro h
        exact ⟨pre, cstr r.tail, hpre, hnot, h⟩
      · rintro ⟨pre', ext, hp, hne, he⟩
        rw [hpre] at hp
        rw [last_split_unique pre pre' _ _ hp hnot hne, he]
  have hz : 0 ∉ b.magic → cstr b.magic = b.magic := by
    intro h0
    unfold cstr
    rw [List.takeWhile_eq_self_iff]
    intro x hx
    simp only [bne_iff_ne, ne_eq]
    intro hx0
    exact h0 (hx0 ▸ hx)
  refine ⟨key, fun h0 => ?_, fun hdot => ?_⟩
  · rw [key, hz h0]
  · cases hm : extension_match (get_extension path) b with
    | false => rfl
    | true =>
      obtain ⟨pre, ext, hp, -, -⟩ := key.mp hm
      exact absurd (by rw [hp]; simp) hdot

/-- The path `foo.jar` matches the extension record with pattern `jar`; the
path `foo` does not. -/
theorem extension_match_iff_witness :
    extension_match (get_extension FOO_JAR) (normalize ex_jar) = true ∧
    extension_match (get_extension FOO) (normalize ex_jar) = false :=
  ⟨((extension_match_iff FOO_JAR (normalize ex_jar)).2.1 (by decide)).mpr
      ⟨FOO, JAR, by decide, by decide, by decide⟩,
   (extension_match_iff FOO (normalize ex_jar)).2.2 (by decide)⟩

/-- C7 (extension matching, as stated).  The registry built from the
`extension` record with pattern `jar\x00` holds a record whose decoded pattern
is the four bytes `j, a, r, 0`.  For the path `foo.jar` the text after the last
`.` is `jar`, which is not that pattern, yet the record is put in the
candidate list. -/
theorem extension_match_nul_in_pattern :
    load_all_formats [ex_jar_nul] = [normalize ex_jar_nul] ∧
    streq (normalize ex_jar_nul).type MAGIC = false ∧
    (normalize ex_jar_nul).magic = [106, 97, 114, 0] ∧
    (normalize ex_jar_nul).magic_size = 4 ∧
    cstr FOO_JAR = FOO ++ 46 :: JAR ∧ 46 ∉ JAR ∧
    get_extension FOO_JAR = some JAR ∧
    JAR ≠ (normalize ex_jar_nul).magic ∧
    extension_match (get_extension FOO_JAR) (normalize ex_jar_nul) = true ∧
    match_loop [] 0 (get_extension FOO_JAR) (load_all_formats [ex_jar_nul])
      = some [normalize ex_jar_nul] := by
  decide

/-! ## Dispatch -/

theorem takeThrough_append {α : Type} (p : α → Bool) (a b : List α) :
    takeThrough p (a ++ b) = if a.any p then takeThrough p a else a ++ takeThrough p b := by
  induction a with
  | nil => simp
  | cons x xs ih =>
    by_cases hx : p x = true
    · simp [takeThrough, hx]
    · simp only [Bool.not_eq_true] at hx
      rw [List.cons_append, takeThrough, if_neg (by simp [hx]), ih, List.any_cons, hx,
        Bool.false_or]
      by_cases ha : xs.any p = true
      · rw [if_pos ha, if_pos ha, takeThrough, if_neg (by simp [hx])]
      · rw [if_neg ha, if_neg ha, List.cons_append]

theorem exec_attempts_append (a b : List Event) :
    exec_attempts (a ++ b) = exec_attempts a ++ exec_attempts b := by
  induction a with
  | nil => rfl
  | cons e rest ih => cases e <;> simp [exec_attempts, ih]

theorem detector_pass_attempts (w : World) (target : List Nat)
    (real_argv : List (Option (List Nat))) (l : List binfmt) :
    exec_attempts (detector_pass w target real_argv l).1
      = (takeThrough (exec_ok w real_argv) (l.filter (gated_ok w target))).map
          (attempt_of real_argv) := by
  induction l with
  | nil => rfl
  | cons b rest ih =>
    by_cases hd : deref b.detector = 0
    · simp [detector_pass, gated_ok, hd, ih]
    · by_cases hp : w.pipeline_run b.detector target = 0
      · by_cases he : w.execvp b.interpreter (exec_args real_argv b) = true
        · simp [detector_pass, gated_ok, hd, hp, he, takeThrough, exec_ok, exec_attempts,
            attempt_of]
        · simp only [Bool.not_eq_true] at he
          simp [detector_pass, gated_ok, hd, hp, he, takeThrough, exec_ok, exec_attempts,
            attempt_of]
          simpa [gated_ok, exec_ok, attempt_of] using ih
      · simp [detector_pass, gated_ok, hd, hp, exec_attempts]
        simpa [gated_ok] using ih

theorem detector_pass_done (w : World) (target : List Nat)
    (real_argv : List (Option (List Nat))) (l : List binfmt) :
    (detector_pass w target real_argv l).2
      = (l.filter (gated_ok w target)).any (exec_ok w real_argv) := by
  induction l with
  | nil => rfl
  | cons b rest ih =>
    by_cases hd : deref b.detector = 0
    · simp [detector_pass, gated_ok, hd, ih]
    · by_cases hp : w.pipeline_run b.detector target = 0
      · by_cases he : w.execvp b.interpreter (exec_args real_argv b) = true
        · simp [detector_pass, gated_ok, hd, hp, he, exec_ok]
        · simp only [Bool.not_eq_true] at he
          simp [detector_pass, gated_ok, hd, hp, he, exec_ok]
          simpa [gated_ok, exec_ok] using ih
      · simp [detector_pass, gated_ok, hd, hp]
        simpa [gated_ok] using ih

theorem plain_pass_attempts (w : World) (real_argv : List (Option (List Nat)))
    (l : List binfmt) :
    exec_attempts (plain_pass w real_argv l).1
      = (takeThrough (exec_ok w real_argv) (l.filter detector_free)).map
          (attempt_of real_argv) := by
  induction l with
  | nil => rfl
  | cons b rest ih =>
    by_cases hd : deref b.detector = 0
    · by_cases he : w.execvp b.interpreter (exec_args real_argv b) = true
      · simp [plain_pass, detector_free, hd, he, takeThrough, exec_ok, exec_attempts,
          attempt_of]
      · simp only [Bool.not_eq_true] at he
        simp [plain_pass, detector_free, hd, he, takeThrough, exec_ok, exec_attempts,
          attempt_of]
        simpa [detector_free, exec_ok, attempt_of] using ih
    · simp [plain_pass, detector_free, hd]
      simpa [detector_free] using ih

theorem plain_pass_done (w : World) (real_argv : List (Option (List Nat)))
    (l : List binfmt) :
    (plain_pass w real_argv l).2 = (l.filter detector_free).any (exec_ok w real_argv) := by
  induction l with
  | nil => rfl
  | cons b rest ih =>
    by_cases hd : deref b.detector = 0
    · by_cases he : w.execvp b.interpreter (exec_args real_argv b) = true
      · simp [plain_pass, detector_free, hd, he, exec_ok]
      · simp only [Bool.not_eq_true] at he
        simp [plain_pass, detector_free, hd, he, exec_ok]
        simpa [detector_free, exec_ok] using ih
    · simp [plain_pass, detector_free, hd]
      simpa [detector_free] using ih

theorem dispatch_attempts (w : World) (target : List Nat)
    (real_argv : List (Option (List Nat))) (l : List binfmt) :
    exec_attempts (dispatch w target real_argv l).1
      = (takeThrough (exec_ok w real_argv) (exec_order w target l)).map
          (attempt_of real_argv) := by
  have h1 := detector_pass_attempts w target real_argv l
  have h2 := detector_pass_done w target real_argv l
  have h3 := plain_pass_attempts w real_argv l
  unfold dispatch exec_order
  rw [takeThrough_append, ← h2]
  by_cases hd : (detector_pass w target real_argv l).2 = true
  · simp [hd, h1]
  · simp only [Bool.not_eq_true] at hd
    have hall : takeThrough (exec_ok w real_argv) (l.filter (gated_ok w target))
        = l.filter (gated_ok w target) := by
      rw [h2] at hd
      generalize l.filter (gated_ok w target) = g at hd
      induction g with
      | nil => rfl
      | cons x xs ih =>
        simp only [List.any_cons, Bool.or_eq_false_iff] at hd
        simp [takeThrough, hd.1, ih hd.2]
    rw [hall] at h1
    by_cases hp : (plain_pass w real_argv l).2 = true
    · simp [hd, hp, exec_attempts_append, h1, h3]
    · simp only [Bool.not_eq_true] at hp
      simp [hd, hp, exec_attempts_append, h1, h3]

/-- C4 (two-pass dispatch order).  For every candidate list, detector outcome
and `execvp` outcome, the `execvp` attempts made by dispatch are, in order,
those for the candidates with a non-empty detector that exits 0 (in list
order) followed by those for the candidates with an empty detector (in list
order), cut after the first attempt that succeeds.  Hence, when some candidate
with a detector passes it and its `execvp` succeeds, no attempt is made for
any detector-free candidate, wherever it stands in the list. -/
theorem dispatch_order (w : World) (target : List Nat)
    (real_argv : List (Option (List Nat))) (ok_formats : List binfmt) :
    exec_attempts (dispatch w target real_argv ok_formats).1
      = (takeThrough (exec_ok w real_argv)
          (ok_formats.filter (gated_ok w target) ++ ok_formats.filter detector_free)).map
          (attempt_of real_argv) ∧
    ((ok_formats.filter (gated_ok w target)).any (exec_ok w real_argv) = true →
      exec_attempts (dispatch w target real_argv ok_formats).1
        = (takeThrough (exec_ok w real_argv) (ok_formats.filter (gated_ok w target))).map
            (attempt_of real_argv)) := by
  refine ⟨dispatch_attempts w target real_argv ok_formats, fun h => ?_⟩
  rw [dispatch_attempts, exec_order, takeThrough_append, if_pos h]

/-- A candidate whose detector fails followed by a detector-free candidate:
the only `execvp` attempt is for the detector-free one, and it replaces the
process. -/
theorem dispatch_order_witness :
    exec_attempts (dispatch world_det_fails [116] [none, some [116], none]
        [ex_gated, ex_free]).1 = [(INT_B, [INT_B, [116]])] ∧
    (dispatch world_det_fails [116] [none, some [116], none] [ex_gated, ex_free]).2
      = Ending.replaced :=
  ⟨(dispatch_order world_det_fails [116] [none, some [116], none]
      [ex_gated, ex_free]).1.trans (by decide), by decide⟩

theorem takeThrough_all_false {α : Type} (p : α → Bool) (l : List α) :
    (∀ x ∈ takeThrough p l, p x = false) ↔ l.any p = false := by
  induction l with
  | nil => simp [takeThrough]
  | cons x xs ih =>
    by_cases hx : p x = true
    · simp [takeThrough, hx]
    · simp only [Bool.not_eq_true] at hx
      simp only [takeThrough, hx, List.any_cons, Bool.false_or, ← ih]
      simp [hx]

theorem dispatch_ending (w : World) (target : List Nat)
    (real_argv : List (Option (List Nat))) (l : List binfmt) :
    (dispatch w target real_argv l).2
      = if (exec_order w target l).any (exec_ok w real_argv) then Ending.replaced
        else Ending.no_interpreter := by
  unfold dispatch exec_order
  rw [List.any_append, ← detector_pass_done, ← plain_pass_done]
  cases (detector_pass w target real_argv l).2 <;>
    cases (plain_pass w real_argv l).2 <;> simp

/-- C8 (terminal failure).  Dispatch ends with "unable to find an interpreter"
exactly when every candidate with a detector fails its detector or fails to
exec and every detector-free candidate fails to exec; equivalently, exactly
when no `execvp` attempt it made succeeded.  With an empty candidate list no
`execvp` is attempted and that ending is reached; the only other ending of
dispatch is the replacement of the process. -/
theorem dispatch_no_interpreter_iff (w : World) (target : List Nat)
    (real_argv : List (Option (List Nat))) (ok_formats : List binfmt) :
    ((dispatch w target real_argv ok_formats).2 = Ending.no_interpreter ↔
      ∀ b ∈ ok_formats,
        (deref b.detector ≠ 0 →
          w.pipeline_run b.detector target ≠ 0
            ∨ w.execvp b.interpreter (exec_args real_argv b) = false) ∧
        (deref b.detector = 0 → w.execvp b.interpreter (exec_args real_argv b) = false)) ∧
    ((dispatch w target real_argv ok_formats).2 = Ending.no_interpreter ↔
      ∀ p ∈ exec_attempts (dispatch w target real_argv ok_formats).1,
        w.execvp p.1 p.2 = false) ∧
    ((dispatch w target real_argv ok_formats).2 = Ending.no_interpreter
      ∨ (dispatch w target real_argv ok_formats).2 = Ending.replaced) ∧
    dispatch w target real_argv [] = ([], Ending.no_interpreter) := by
  have he := dispatch_ending w target real_argv ok_formats
  have hn : (dispatch w target real_argv ok_formats).2 = Ending.no_interpreter ↔
      (exec_order w target ok_formats).any (exec_ok w real_argv) = false := by
    rw [he]
    cases (exec_order w target ok_formats).any (exec_ok w real_argv) <;> simp
  refine ⟨?_, ?_, ?_, ?_⟩
  · rw [hn]
    simp only [exec_order, List.any_append, Bool.or_eq_false_iff, List.any_eq_false,
      List.mem_filter, gated_ok, detector_free, exec_ok, Bool.and_eq_true, bne_iff_ne,
      beq_iff_eq, and_imp, Bool.not_eq_true]
    constructor
    · rintro ⟨h1, h2⟩ b hb
      refine ⟨fun hd => ?_, fun hd => h2 b hb hd⟩
      by_cases hp : w.pipeline_run b.detector target = 0
      · exact Or.inr (h1 b hb hd hp)
      · exact Or.inl hp
    · intro h
      refine ⟨fun b hb hd hp => ?_, fun b hb hd => (h b hb).2 hd⟩
      rcases (h b hb).1 hd with h' | h'
      · exact absurd hp h'
      · exact h'
  · rw [hn, dispatch_attempts, ← takeThrough_all_false]
    simp [attempt_of, exec_ok]
  · rw [he]
    cases (exec_order w target ok_formats).any (exec_ok w real_argv) <;> simp
  · rfl

/-! ## The argument vector -/

theorem copy_args_fill (argv : List (List Nat)) (k : Nat) :
    ∀ (n i : Nat) (A B : List (Option (List Nat))),
      A.length = i - k + 1 → k ≤ i → i + n ≤ argv.length →
      copy_args argv k n i (A ++ List.replicate n none ++ B)
        = A ++ ((argv.drop i).take n).map some ++ B := by
  intro n
  induction n with
  | zero => intro i A B _ _ _; simp [copy_args]
  | succ n ih =>
    intro i A B hA hk hlen
    have hi : i < argv.length := by omega
    have hset : (A ++ List.replicate (n + 1) none ++ B).set (i - k + 1) argv[i]?
        = (A ++ [some argv[i]]) ++ List.replicate n none ++ B := by
      rw [← hA, List.append_assoc, List.set_append_right _ _ (Nat.le_refl _)]
      simp [List.replicate_succ, List.getElem?_eq_getElem hi]
    have hdrop : (argv.drop i).take (n + 1) = argv[i] :: (argv.drop (i + 1)).take n := by
      rw [List.drop_eq_getElem_cons hi, List.take_succ_cons]
    rw [copy_args, hset, ih (i + 1) (A ++ [some argv[i]]) B (by simp; omega) (by omega)
      (by omega), hdrop]
    simp

theorem build_real_argv_eq (argv : List (List Nat)) (k : Nat) (hk : k ≤ argv.length) :
    build_real_argv argv k = none :: ((argv.drop k).map some ++ [none]) := by
  have hrep : List.replicate (argv.length - k + 2) (none : Option (List Nat))
      = [none] ++ List.replicate (argv.length - k) none ++ [none] := by
    show List.replicate (argv.length - k + 1 + 1) none = _
    rw [List.replicate_succ, List.replicate_succ']
    rfl
  have hfill := copy_args_fill argv k (argv.length - k) k [none] [none] (by simp) (Nat.le_refl _)
    (by omega)
  have htake : (argv.drop k).take (argv.length - k) = argv.drop k := by
    apply List.take_of_length_le
    simp
  unfold build_real_argv
  rw [hrep, hfill, htake]
  have hidx : argv.length - k + 1
      = ([none] ++ (argv.drop k).map some : List (Option (List Nat))).length := by
    simp
  rw [hidx, List.set_append_right _ _ (Nat.le_refl _)]
  simp

theorem exec_vector_map_some (l : List (List Nat)) (r : List (Option (List Nat))) :
    exec_vector (l.map some ++ none :: r) = l := by
  induction l with
  | nil => simp [exec_vector]
  | cons a rest ih => simp [exec_vector, ih]

theorem exec_args_build (argv : List (List Nat)) (k : Nat) (hk : k ≤ argv.length) (b : binfmt) :
    exec_args (build_real_argv argv k) b = b.interpreter :: argv.drop k := by
  rw [exec_args, build_real_argv_eq argv k hk, List.set_cons_zero, exec_vector,
    exec_vector_map_some]

theorem match_loop_subset (buf : List Nat) (toread : Nat) (ext : Option (List Nat)) :
    ∀ (l ok : List binfmt), match_loop buf toread ext l = some ok → ∀ b ∈ ok, b ∈ l := by
  intro l
  induction l with
  | nil => intro ok h b hb; simp [match_loop] at h; subst h; simp at hb
  | cons x rest ih =>
    intro ok h b hb
    rw [match_loop] at h
    split at h
    · split at h
      · simp at h
      · split at h
        · simp at h
        · rename_i l' hl'
          simp only [Option.some.injEq] at h
          subst h
          split at hb
          · rcases List.mem_cons.mp hb with hb' | hb'
            · simp [hb']
            · exact List.mem_cons_of_mem _ (ih l' hl' b hb')
          · exact List.mem_cons_of_mem _ (ih l' hl' b hb)
    · split at h
      · simp at h
      · rename_i l' hl'
        simp only [Option.some.injEq] at h
        subst h
        split at hb
        · rcases List.mem_cons.mp hb with hb' | hb'
          · simp [hb']
          · exact List.mem_cons_of_mem _ (ih l' hl' b hb')
        · exact List.mem_cons_of_mem _ (ih l' hl' b hb)

theorem mem_takeThrough {α : Type} (p : α → Bool) (l : List α) (x : α)
    (h : x ∈ takeThrough p l) : x ∈ l := by
  induction l with
  | nil => simp [takeThrough] at h
  | cons y ys ih =>
    rw [takeThrough] at h
    split at h
    · simp at h; simp [h]
    · rcases List.mem_cons.mp h with h' | h'
      · simp [h']
      · exact List.mem_cons_of_mem _ (ih h')

theorem dispatch_attempt_mem (w : World) (target : List Nat)
    (real_argv : List (Option (List Nat))) (l : List binfmt)
    (p : List Nat × List (List Nat))
    (hp : p ∈ exec_attempts (dispatch w target real_argv l).1) :
    ∃ b ∈ l, p = attempt_of real_argv b := by
  rw [dispatch_attempts, List.mem_map] at hp
  obtain ⟨b, hb, rfl⟩ := hp
  have hb' := mem_takeThrough _ _ _ hb
  refine ⟨b, ?_, rfl⟩
  rw [exec_order, List.mem_append] at hb'
  rcases hb' with h | h <;> exact (List.mem_filter.mp h).1

/-- C9 (forwarded argument vector).  In every run of `main` that reaches
dispatch (so `arg_index < argc`), each vector passed to `execvp` consists of
the interpreter of a registry record on which the attempt is made, followed by
`argv[arg_index]`, ..., `argv[argc - 1]` unchanged and in order; it has `argc
- arg_index + 1` entries. -/
theorem forwarded_argv (w : World) (loaded : List binfmt) (argv : List (List Nat))
    (arg_index : Nat) (file : Option (List Nat)) (log : List Event) (ending : Ending)
    (hm : main w loaded argv arg_index file = some (log, ending))
    (p : List Nat × List (List Nat)) (hp : p ∈ exec_attempts log) :
    arg_index < argv.length ∧
    p.2 = p.1 :: argv.drop arg_index ∧
    p.2.length = argv.length - arg_index + 1 ∧
    p.2[0]? = some p.1 ∧
    (∀ j, j < argv.length - arg_index → p.2[j + 1]? = argv[arg_index + j]?) ∧
    ∃ b ∈ load_all_formats loaded, b.interpreter = p.1 := by
  unfold main at hm
  split at hm
  · simp at hm; obtain ⟨rfl, -⟩ := hm; simp [exec_attempts] at hp
  · rename_i target htarget
    have hlt : arg_index < argv.length := by
      by_contra hge
      rw [List.getElem?_eq_none (by omega)] at htarget
      simp at htarget
    split at hm
    · simp at hm; obtain ⟨rfl, -⟩ := hm; simp [exec_attempts] at hp
    · split at hm
      · simp at hm
      · rename_i ok hok
        simp only [Option.some.injEq] at hm
        have hlog : log = (dispatch w target (build_real_argv argv arg_index) ok).1 := by
          rw [hm]
        rw [hlog] at hp
        obtain ⟨b, hb, rfl⟩ := dispatch_attempt_mem _ _ _ _ _ hp
        have hargs := exec_args_build argv arg_index (Nat.le_of_lt hlt) b
        refine ⟨hlt, ?_, ?_, ?_, ?_, b, match_loop_subset _ _ _ _ _ hok b hb, rfl⟩
        · simp [attempt_of, hargs]
        · simp [attempt_of, hargs]
        · simp [attempt_of, hargs]
        · intro j _
          simp [attempt_of, hargs]

/-- With a detector that fails and an `execvp` that fails for every
interpreter, dispatch over a candidate with detector and one without ends with
"unable to find an interpreter"; so it does over the empty candidate list,
without any event. -/
theorem dispatch_no_interpreter_iff_witness :
    (dispatch world_all_fail [116] [none, some [116], none] [ex_gated, ex_free]).2
      = Ending.no_interpreter ∧
    dispatch world_all_fail [116] [none, some [116], none] [] = ([], Ending.no_interpreter) :=
  ⟨(dispatch_no_interpreter_iff world_all_fail [116] [none, some [116], none]
      [ex_gated, ex_free]).1.mpr (by decide),
   (dispatch_no_interpreter_iff world_all_fail [116] [none, some [116], none]
      [ex_gated, ex_free]).2.2.2⟩

/-- Registry built from the record with magic `\x23\x21` and interpreter
`/bin/sh`, command line `run-detectors t a b` with the target at index 1, and
a target file beginning with the bytes `23 21`: the one `execvp` is of
`/bin/sh` with the vector `/bin/sh t a b`. -/
theorem forwarded_argv_witness :
    main world_det_fails [ex_sh] ex_argv 1 (some [0x23, 0x21, 10])
      = some ([Event.exec BIN_SH [BIN_SH, [116], [97], [98]]], Ending.replaced) ∧
    (1 < ex_argv.length ∧
     (BIN_SH, [BIN_SH, [116], [97], [98]]).2
        = (BIN_SH, [BIN_SH, [116], [97], [98]]).1 :: ex_argv.drop 1 ∧
     (BIN_SH, [BIN_SH, [116], [97], [98]]).2.length = ex_argv.length - 1 + 1 ∧
     (BIN_SH, [BIN_SH, [116], [97], [98]]).2[0]? = some (BIN_SH, [BIN_SH, [116], [97], [98]]).1 ∧
     (∀ j, j < ex_argv.length - 1 →
        (BIN_SH, [BIN_SH, [116], [97], [98]]).2[j + 1]? = ex_argv[1 + j]?) ∧
     ∃ b ∈ load_all_formats [ex_sh], b.interpreter = (BIN_SH, [BIN_SH, [116], [97], [98]]).1) :=
  ⟨by decide,
   forwarded_argv world_det_fails [ex_sh] ex_argv 1 (some [0x23, 0x21, 10])
     [Event.exec BIN_SH [BIN_SH, [116], [97], [98]]] Ending.replaced (by decide)
     (BIN_SH, [BIN_SH, [116], [97], [98]]) (by decide)⟩

/-! ## The loop of `expand_hex`, step by step -/

theorem expand_hex_loop_zero (tl : List Nat) : expand_hex_loop (0 :: tl) = [] := by
  cases tl with
  | nil => rfl
  | cons c1 t1 =>
    cases t1 with
    | nil => rfl
    | cons c2 t2 =>
      cases t2 with
      | nil => rfl
      | cons c3 t3 => rfl

theorem expand_hex_loop_decode {c0 c1 c2 c3 : Nat} {rest : List Nat} (h0 : c0 ≠ 0)
    (h : 4 ≤ strlen (c0 :: c1 :: c2 :: c3 :: rest) ∧ c0 = 92 ∧ c1 = 120
      ∧ (strtol (c2 :: c3 :: rest) 16).2 = 2) :
    expand_hex_loop (c0 :: c1 :: c2 :: c3 :: rest)
      = toChar (strtol (c2 :: c3 :: rest) 16).1 :: expand_hex_loop rest := by
  rw [expand_hex_loop, if_neg h0, if_pos h]

theorem expand_hex_loop_literal {c0 c1 c2 c3 : Nat} {rest : List Nat} (h0 : c0 ≠ 0)
    (h : ¬ (4 ≤ strlen (c0 :: c1 :: c2 :: c3 :: rest) ∧ c0 = 92 ∧ c1 = 120
      ∧ (strtol (c2 :: c3 :: rest) 16).2 = 2)) :
    expand_hex_loop (c0 :: c1 :: c2 :: c3 :: rest)
      = c0 :: expand_hex_loop (c1 :: c2 :: c3 :: rest) := by
  rw [expand_hex_loop, if_neg h0, if_neg h]

theorem expand_hex_loop_short {c0 : Nat} {short : List Nat} (h0 : c0 ≠ 0)
    (h : ∀ (c1 c2 c3 : Nat) (rest : List Nat), short = c1 :: c2 :: c3 :: rest → False) :
    expand_hex_loop (c0 :: short) = c0 :: expand_hex_loop short := by
  rw [expand_hex_loop, if_neg h0]
  exact h

theorem expand_hex_escapes_zero (tl : List Nat) : expand_hex_escapes (0 :: tl) = 0 := by
  cases tl with
  | nil => rfl
  | cons c1 t1 =>
    cases t1 with
    | nil => rfl
    | cons c2 t2 =>
      cases t2 with
      | nil => rfl
      | cons c3 t3 => rfl

theorem expand_hex_escapes_decode {c0 c1 c2 c3 : Nat} {rest : List Nat} (h0 : c0 ≠ 0)
    (h : 4 ≤ strlen (c0 :: c1 :: c2 :: c3 :: rest) ∧ c0 = 92 ∧ c1 = 120
      ∧ (strtol (c2 :: c3 :: rest) 16).2 = 2) :
    expand_hex_escapes (c0 :: c1 :: c2 :: c3 :: rest) = expand_hex_escapes rest + 1 := by
  rw [expand_hex_escapes, if_neg h0, if_pos h]

theorem expand_hex_escapes_literal {c0 c1 c2 c3 : Nat} {rest : List Nat} (h0 : c0 ≠ 0)
    (h : ¬ (4 ≤ strlen (c0 :: c1 :: c2 :: c3 :: rest) ∧ c0 = 92 ∧ c1 = 120
      ∧ (strtol (c2 :: c3 :: rest) 16).2 = 2)) :
    expand_hex_escapes (c0 :: c1 :: c2 :: c3 :: rest)
      = expand_hex_escapes (c1 :: c2 :: c3 :: rest) := by
  rw [expand_hex_escapes, if_neg h0, if_neg h]

theorem expand_hex_escapes_short {c0 : Nat} {short : List Nat} (h0 : c0 ≠ 0)
    (h : ∀ (c1 c2 c3 : Nat) (rest : List Nat), short = c1 :: c2 :: c3 :: rest → False) :
    expand_hex_escapes (c0 :: short) = expand_hex_escapes short := by
  rw [expand_hex_escapes, if_neg h0]
  exact h

theorem strlen_cons_ne_zero {x : Nat} (xs : List Nat) (h : x ≠ 0) :
    strlen (x :: xs) = strlen xs + 1 := by
  simp [strlen, cstr_cons_ne_zero xs h]

theorem strlen_cons_zero (xs : List Nat) : strlen (0 :: xs) = 0 := by
  simp [strlen, cstr_cons_zero]

/-- When at least four characters remain before the terminator, the first
four are not NUL and the string continues after them. -/
theorem strlen_four {c0 c1 c2 c3 : Nat} {rest : List Nat}
    (h : 4 ≤ strlen (c0 :: c1 :: c2 :: c3 :: rest)) :
    strlen (c0 :: c1 :: c2 :: c3 :: rest) = strlen rest + 4 := by
  by_cases h0 : c0 = 0
  · subst h0; rw [strlen_cons_zero] at h; omega
  · rw [strlen_cons_ne_zero _ h0] at h ⊢
    by_cases h1 : c1 = 0
    · subst h1; rw [strlen_cons_zero] at h; omega
    · rw [strlen_cons_ne_zero _ h1] at h ⊢
      by_cases h2 : c2 = 0
      · subst h2; rw [strlen_cons_zero] at h; omega
      · rw [strlen_cons_ne_zero _ h2] at h ⊢
        by_cases h3 : c3 = 0
        · subst h3; rw [strlen_cons_zero] at h; omega
        · rw [strlen_cons_ne_zero _ h3]

theorem expand_hex_loop_length (str : List Nat) :
    strlen str = (expand_hex_loop str).length + 3 * expand_hex_escapes str := by
  induction str using expand_hex_loop.induct with
  | case1 => rfl
  | case2 tl => rw [strlen_cons_zero, expand_hex_loop_zero, expand_hex_escapes_zero]; rfl
  | case3 c0 h0 c1 c2 c3 rest h ih =>
    rw [expand_hex_loop_decode h0 h, expand_hex_escapes_decode h0 h, strlen_four h.1, ih,
      List.length_cons]
    omega
  | case4 c0 h0 c1 c2 c3 rest h ih =>
    rw [expand_hex_loop_literal h0 h, expand_hex_escapes_literal h0 h,
      strlen_cons_ne_zero _ h0, ih, List.length_cons]
    omega
  | case5 c0 h0 short h ih =>
    rw [expand_hex_loop_short h0 h, expand_hex_escapes_short h0 h,
      strlen_cons_ne_zero _ h0, ih, List.length_cons]
    omega

/-- C12 (decoded length bound).  For every input, the length returned by
`expand_hex` is at most the length of the input string, so the `len + 1` bytes
allocated for the output suffice for the bytes written and the terminator; the
length of the input string is the returned length plus three times the number
of escapes decoded. -/
theorem expand_hex_length (str : List Nat) :
    (expand_hex str).2 ≤ strlen str ∧
    (expand_hex str).1.length + 1 ≤ strlen str + 1 ∧
    strlen str = (expand_hex str).2 + 3 * expand_hex_escapes str ∧
    strlen str ≤ str.length := by
  have h := expand_hex_loop_length str
  have hl : strlen str ≤ str.length := by
    unfold strlen cstr
    exact (List.takeWhile_sublist _).length_le
  simp only [expand_hex]
  omega

/-- C11 (escapes are recognized only in the form `\xHH`).  On the four
characters backslash, `x`, space, `4` the loop of `expand_hex` emits the single
byte 4 and advances four characters, although a space is not a hexadecimal
digit: `strtol` skips the space, reads `4` and stops after two characters, so
`end == s + 4` holds.  The same happens with a sign in place of the space:
`\x+4` gives the byte 4 and `\x-4` the byte `0xFC`.  The claim has each of
these texts copied as four literal characters. -/
theorem expand_hex_space_or_sign_escape :
    digitIn 16 32 = none ∧ digitIn 16 45 = none ∧ digitIn 16 43 = none ∧
    strtol [32, 52] 16 = (4, 2) ∧ strtol [45, 52] 16 = (-4, 2) ∧ strtol [43, 52] 16 = (4, 2) ∧
    expand_hex TEXT_X_SPACE_4 = ([4], 1) ∧
    expand_hex TEXT_X_MINUS_4 = ([0xFC], 1) ∧
    expand_hex TEXT_X_PLUS_4 = ([4], 1) ∧
    expand_hex_escapes TEXT_X_SPACE_4 = 1 ∧
    expand_hex TEXT_X_SPACE_4 ≠ (TEXT_X_SPACE_4, 4) := by
  decide

theorem cstr_of_no_zero {s : List Nat} (h : 0 ∉ s) : cstr s = s := by
  unfold cstr
  rw [List.takeWhile_eq_self_iff]
  intro x hx
  simp only [bne_iff_ne, ne_eq]
  intro hx0
  exact h (hx0 ▸ hx)

theorem cstr_no_zero (s : List Nat) : 0 ∉ cstr s := by
  intro h
  have := List.mem_takeWhile_imp h
  simp at this

theorem cstr_idem (s : List Nat) : cstr (cstr s) = cstr s :=
  cstr_of_no_zero (cstr_no_zero s)

theorem expand_hex_loop_escape_free (str : List Nat)
    (h : ∀ pre post, cstr str ≠ pre ++ 92 :: 120 :: post) :
    expand_hex_loop str = cstr str := by
  induction str using expand_hex_loop.induct with
  | case1 => rfl
  | case2 tl => rw [expand_hex_loop_zero, cstr_cons_zero]
  | case3 c0 h0 c1 c2 c3 rest hc ih =>
    exfalso
    obtain ⟨-, e0, e1, -⟩ := hc
    subst e0 e1
    refine h [] (cstr (c2 :: c3 :: rest)) ?_
    rw [cstr_cons_ne_zero _ (by decide), cstr_cons_ne_zero _ (by decide)]
    rfl
  | case4 c0 h0 c1 c2 c3 rest hc ih =>
    rw [expand_hex_loop_literal h0 hc, cstr_cons_ne_zero _ h0, ih]
    intro pre post e
    refine h (c0 :: pre) post ?_
    rw [cstr_cons_ne_zero _ h0, e]
    rfl
  | case5 c0 h0 short hs ih =>
    rw [expand_hex_loop_short h0 hs, cstr_cons_ne_zero _ h0, ih]
    intro pre post e
    refine h (c0 :: pre) post ?_
    rw [cstr_cons_ne_zero _ h0, e]
    rfl

/-- C13 (escape-free input is a fixed point).  For every input whose string
contains no backslash immediately followed by `x`, `expand_hex` returns the
string unchanged with its full length (for a buffer without zero byte, the
buffer itself and its length), and decoding any number of times gives the same
result as decoding once. -/
theorem expand_hex_escape_free (str : List Nat)
    (h : ∀ pre post, cstr str ≠ pre ++ 92 :: 120 :: post) :
    expand_hex str = (cstr str, strlen str) ∧
    (0 ∉ str → expand_hex str = (str, str.length)) ∧
    ∀ n : Nat, Nat.iterate decode (n + 1) str = decode str := by
  have h1 : expand_hex str = (cstr str, strlen str) := by
    simp only [expand_hex, expand_hex_loop_escape_free str h, strlen]
  have hfix : decode (cstr str) = cstr str := by
    unfold decode expand_hex
    simp only
    rw [expand_hex_loop_escape_free (cstr str) (by rw [cstr_idem]; exact h), cstr_idem]
  have hd : decode str = cstr str := by rw [decode, h1]
  refine ⟨h1, fun h0 => ?_, fun n => ?_⟩
  · rw [h1, strlen, cstr_of_no_zero h0]
  · rw [Function.iterate_succ_apply, hd]
    induction n with
    | zero => rfl
    | succ k ih => rw [Function.iterate_succ_apply, hfix, ih]

/-- The text `a\b.x` has no backslash followed by `x`: it is returned
unchanged with length 5, also when decoded three times. -/
theorem expand_hex_escape_free_witness :
    expand_hex TEXT_NO_ESCAPE = (TEXT_NO_ESCAPE, 5) ∧
    Nat.iterate decode 3 TEXT_NO_ESCAPE = decode TEXT_NO_ESCAPE :=
  have h : ∀ pre post, cstr TEXT_NO_ESCAPE ≠ pre ++ 92 :: 120 :: post := by
    intro pre post e
    have hc : cstr TEXT_NO_ESCAPE = [97, 92, 98, 46, 120] := by decide
    rw [hc] at e
    match pre, e with
    | [], e => simp at e
    | [_], e => simp at e
    | [_, _], e => simp at e
    | [_, _, _], e => simp at e
    | [_, _, _, _], e => simp at e
    | _ :: _ :: _ :: _ :: _ :: _, e => simp at e
  ⟨(expand_hex_escape_free TEXT_NO_ESCAPE h).2.1 (by decide),
   (expand_hex_escape_free TEXT_NO_ESCAPE h).2.2 2⟩

/-! ## A trailing fragment after the text -/

theorem takeWhile_append_stop {p : Nat → Bool} {x : Nat} (hx : p x = false) (u t : List Nat) :
    List.takeWhile p (u ++ x :: t) = List.takeWhile p u := by
  induction u with
  | nil => simp [List.takeWhile_cons, hx]
  | cons a as ih =>
    simp only [List.cons_append, List.takeWhile_cons]
    cases p a <;> simp [ih]

theorem signLen_append_stop (v t : List Nat) : signLen (v ++ 92 :: t) = signLen v := by
  cases v with
  | nil => simp [signLen]
  | cons a as => rfl

theorem signNeg_append_stop (v t : List Nat) : signNeg (v ++ 92 :: t) = signNeg v := by
  cases v with
  | nil => simp [signNeg]
  | cons a as => rfl

theorem signLen_le (v : List Nat) : signLen v ≤ v.length := by
  cases v with
  | nil => simp [signLen]
  | cons a as => simp only [signLen, List.length_cons]; split <;> omega

theorem hexPrefixLen_append_stop (v t : List Nat) :
    hexPrefixLen 16 (v ++ 92 :: t) = hexPrefixLen 16 v := by
  match v with
  | [] =>
    cases t with
    | nil => rfl
    | cons a as => simp [hexPrefixLen]
  | [c] => simp [hexPrefixLen]
  | c :: x :: rest => rfl

theorem hexPrefixLen_le (base : Nat) (v : List Nat) : hexPrefixLen base v ≤ v.length := by
  match v with
  | [] => simp [hexPrefixLen]
  | [c] => simp [hexPrefixLen]
  | c :: x :: rest => simp only [hexPrefixLen, List.length_cons]; split <;> omega

theorem scanDigits_append_stop (v t : List Nat) (acc : Nat) :
    scanDigits 16 (v ++ 92 :: t) acc = scanDigits 16 v acc := by
  induction v generalizing acc with
  | nil =>
    have h : digitIn 16 92 = none := by decide
    simp [scanDigits, h]
  | cons a as ih =>
    rw [List.cons_append, scanDigits, scanDigits]
    cases digitIn 16 a with
    | none => rfl
    | some d => simp only [ih]

theorem scanDigits_le (base : Nat) (v : List Nat) (acc : Nat) :
    (scanDigits base v acc).2 ≤ v.length := by
  induction v generalizing acc with
  | nil => simp [scanDigits]
  | cons a as ih =>
    simp only [scanDigits, List.length_cons]
    cases digitIn base a with
    | none => simp
    | some d => simp only; have := ih (acc * base + d); omega

theorem length_takeWhile_le_length (p : Nat → Bool) (u : List Nat) :
    (List.takeWhile p u).length ≤ u.length :=
  (List.takeWhile_sublist p).length_le

/-- A backslash stops `strtol`: what follows it has no influence on the
result. -/
theorem strtol_append_stop (u t : List Nat) : strtol (u ++ 92 :: t) 16 = strtol u 16 := by
  have hws := takeWhile_append_stop (p := isspace) (x := 92) (by decide) u t
  have hwl := length_takeWhile_le_length isspace u
  have hsl := signLen_le (u.drop (List.takeWhile isspace u).length)
  have hpl := hexPrefixLen_le 16
    ((u.drop (List.takeWhile isspace u).length).drop
      (signLen (u.drop (List.takeWhile isspace u).length)))
  unfold strtol
  simp only [hws]
  rw [List.drop_append_of_le_length hwl]
  simp only [signLen_append_stop, signNeg_append_stop]
  rw [List.drop_append_of_le_length hsl]
  simp only [hexPrefixLen_append_stop]
  rw [List.drop_append_of_le_length hpl]
  simp only [scanDigits_append_stop]

theorem strtol_consumed_le (u : List Nat) : (strtol u 16).2 ≤ u.length := by
  have hwl := length_takeWhile_le_length isspace u
  have hsl := signLen_le (u.drop (List.takeWhile isspace u).length)
  have hpl := hexPrefixLen_le 16
    ((u.drop (List.takeWhile isspace u).length).drop
      (signLen (u.drop (List.takeWhile isspace u).length)))
  have hdl := scanDigits_le 16
    (((u.drop (List.takeWhile isspace u).length).drop
      (signLen (u.drop (List.takeWhile isspace u).length))).drop
      (hexPrefixLen 16 ((u.drop (List.takeWhile isspace u).length).drop
        (signLen (u.drop (List.takeWhile isspace u).length))))) 0
  simp only [List.length_drop] at hsl hpl hdl
  unfold strtol
  simp only
  split
  · split
    · rename_i hp
      simp only
      rw [hp] at hpl
      omega
    · simp
  · simp only
    omega

theorem expand_hex_loop_no_decode {c0 : Nat} {l : List Nat} (h0 : c0 ≠ 0)
    (h : ∀ c1 c2 c3 rest, l = c1 :: c2 :: c3 :: rest →
      ¬ (4 ≤ strlen (c0 :: c1 :: c2 :: c3 :: rest) ∧ c0 = 92 ∧ c1 = 120
        ∧ (strtol (c2 :: c3 :: rest) 16).2 = 2)) :
    expand_hex_loop (c0 :: l) = c0 :: expand_hex_loop l := by
  match l, h with
  | c1 :: c2 :: c3 :: rest, h => exact expand_hex_loop_literal h0 (h _ _ _ _ rfl)
  | [], _ => exact expand_hex_loop_short h0 (by intro _ _ _ _ e; simp at e)
  | [_], _ => exact expand_hex_loop_short h0 (by intro _ _ _ _ e; simp at e)
  | [_, _], _ => exact expand_hex_loop_short h0 (by intro _ _ _ _ e; simp at e)

theorem expand_hex_loop_short_text (t : List Nat) (hl : t.length ≤ 3) (h0 : 0 ∉ t) :
    expand_hex_loop t = t := by
  induction t with
  | nil => rfl
  | cons a as ih =>
    have ha : a ≠ 0 := fun e => h0 (by simp [e])
    have has : 0 ∉ as := fun e => h0 (List.mem_cons_of_mem _ e)
    simp only [List.length_cons] at hl
    rw [expand_hex_loop_short ha, ih (by omega) has]
    intro c1 c2 c3 rest e
    rw [e] at hl
    simp only [List.length_cons] at hl
    omega

theorem expand_hex_loop_append_fragment (t : List Nat) (hl : t.length ≤ 2)
    (ht : 0 ∉ t) (p : List Nat) (hp : 0 ∉ p) :
    expand_hex_loop (p ++ 92 :: t) = expand_hex_loop p ++ 92 :: t := by
  induction p using expand_hex_loop.induct with
  | case1 =>
    have h0 : 0 ∉ 92 :: t := by simp [ht]
    rw [List.nil_append, expand_hex_loop_short_text _ (by simp; omega) h0]
    rfl
  | case2 tl => exact absurd (List.mem_cons_self 0 tl) hp
  | case3 c0 h0 c1 c2 c3 rest hc ih =>
    have hrest : 0 ∉ rest := fun e => hp (by simp [e])
    have hst : strtol (c2 :: c3 :: (rest ++ 92 :: t)) 16 = strtol (c2 :: c3 :: rest) 16 :=
      strtol_append_stop (c2 :: c3 :: rest) t
    have hlen : 4 ≤ strlen (c0 :: c1 :: c2 :: c3 :: (rest ++ 92 :: t)) := by
      have := strlen_four hc.1
      apply strlen_four_le _ h0
      · intro e; subst e; rw [strlen_cons_ne_zero _ h0, strlen_cons_zero] at hc; omega
      · intro e; subst e; exact hp (by simp)
      · intro e; subst e; exact hp (by simp)
    have hc' : 4 ≤ strlen (c0 :: c1 :: c2 :: c3 :: (rest ++ 92 :: t)) ∧ c0 = 92 ∧ c1 = 120
        ∧ (strtol (c2 :: c3 :: (rest ++ 92 :: t)) 16).2 = 2 :=
      ⟨hlen, hc.2.1, hc.2.2.1, by rw [hst]; exact hc.2.2.2⟩
    simp only [List.cons_append]
    rw [expand_hex_loop_decode h0 hc', expand_hex_loop_decode h0 hc, hst, ih hrest]
    rfl
  | case4 c0 h0 c1 c2 c3 rest hc ih =>
    have htl : 0 ∉ c1 :: c2 :: c3 :: rest := fun e => hp (List.mem_cons_of_mem _ e)
    have hst : strtol (c2 :: c3 :: (rest ++ 92 :: t)) 16 = strtol (c2 :: c3 :: rest) 16 :=
      strtol_append_stop (c2 :: c3 :: rest) t
    have hlen : 4 ≤ strlen (c0 :: c1 :: c2 :: c3 :: rest) := by
      apply strlen_four_le _ h0
      · intro e; subst e; exact hp (by simp)
      · intro e; subst e; exact hp (by simp)
      · intro e; subst e; exact hp (by simp)
    have hc' : ¬ (4 ≤ strlen (c0 :: c1 :: c2 :: c3 :: (rest ++ 92 :: t)) ∧ c0 = 92 ∧ c1 = 120
        ∧ (strtol (c2 :: c3 :: (rest ++ 92 :: t)) 16).2 = 2) := by
      rintro ⟨-, e0, e1, e2⟩
      exact hc ⟨hlen, e0, e1, by rw [← hst]; exact e2⟩
    have ih' := ih htl
    simp only [List.cons_append] at ih' ⊢
    rw [expand_hex_loop_literal h0 hc', expand_hex_loop_literal h0 hc, ih']
    rfl
  | case5 c0 h0 short hs ih =>
    have hshort : 0 ∉ short := fun e => hp (List.mem_cons_of_mem _ e)
    have hno : ∀ c1 c2 c3 rest, short ++ 92 :: t = c1 :: c2 :: c3 :: rest →
        ¬ (4 ≤ strlen (c0 :: c1 :: c2 :: c3 :: rest) ∧ c0 = 92 ∧ c1 = 120
          ∧ (strtol (c2 :: c3 :: rest) 16).2 = 2) := by
      intro c1 c2 c3 rest e
      rintro ⟨-, -, e1, e2⟩
      match short, hs, e with
      | [], _, e =>
        simp only [List.nil_append, List.cons.injEq] at e
        omega
      | [a], _, e =>
        simp only [List.cons_append, List.nil_append, List.cons.injEq] at e
        obtain ⟨-, eb, -⟩ := e
        have h2 : strtol (92 :: c3 :: rest) 16 = strtol [] 16 :=
          strtol_append_stop [] (c3 :: rest)
        rw [← eb, h2] at e2
        revert e2
        decide
      | [a, b], _, e =>
        simp only [List.cons_append, List.nil_append, List.cons.injEq] at e
        obtain ⟨-, eb, e3, er⟩ := e
        have h2 : strtol (b :: 92 :: t) 16 = strtol [b] 16 := strtol_append_stop [b] t
        have h3 := strtol_consumed_le [b]
        rw [← eb, ← e3, ← er, h2] at e2
        simp only [List.length_cons, List.length_nil] at h3
        omega
      | a :: b :: c :: r, hs, _ => exact hs a b c r rfl
    rw [List.cons_append, expand_hex_loop_no_decode h0 hno, expand_hex_loop_short h0 hs,
      ih hshort]
    rfl

/-- C14 (incomplete trailing escape is literal).  For every text `p` and every
fragment `t` that is a backslash followed by at most two further characters
(neither containing a NUL, as C strings), `expand_hex` applied to `p` followed
by `t` returns the decoding of `p` followed by the characters of `t`
unchanged, and the length of the decoding of `p` plus the length of `t`. -/
theorem expand_hex_trailing_fragment (p t : List Nat) (hp : 0 ∉ p) (ht : 0 ∉ t)
    (hb : t.head? = some 92) (hl : t.length ≤ 3) :
    expand_hex (p ++ t) = ((expand_hex p).1 ++ t, (expand_hex p).2 + t.length) := by
  match t, hb with
  | c :: t', hb =>
    simp only [List.head?_cons, Option.some.injEq] at hb
    subst hb
    have ht' : 0 ∉ t' := fun e => ht (List.mem_cons_of_mem _ e)
    simp only [List.length_cons] at hl
    have h := expand_hex_loop_append_fragment t' (by omega) ht' p hp
    simp only [expand_hex, h, List.length_append]

/-- The text `ab\x4` decodes to its own five characters. -/
theorem expand_hex_trailing_fragment_witness :
    TEXT_AB_X4 = [97, 98] ++ [92, 120, 52] ∧
    expand_hex ([97, 98] ++ [92, 120, 52]) = ([97, 98, 92, 120, 52], 5) :=
  ⟨by decide,
   (expand_hex_trailing_fragment [97, 98] [92, 120, 52] (by decide) (by decide) (by decide)
      (by decide)).trans (by decide)⟩

/-! ## String-based extraction against byte-wise comparison -/

theorem buf_at_natCast (buf : List Nat) (i : Nat) : buf_at buf (i : Int) = buf[i]? := by
  simp [buf_at]

theorem xstrndup_in_bounds (buf : List Nat) :
    ∀ (n off : Nat), off + n ≤ buf.length →
      xstrndup buf (off : Int) n = some (cstr ((buf.drop off).take n) ++ [0]) := by
  intro n
  induction n with
  | zero => intro off _; simp [xstrndup, cstr]
  | succ n ih =>
    intro off h
    have hlt : off < buf.length := by omega
    have hd : (buf.drop off).take (n + 1) = buf[off] :: (buf.drop (off + 1)).take n := by
      rw [List.drop_eq_getElem_cons hlt, List.take_succ_cons]
    have hcast : ((off : Int) + 1) = ((off + 1 : Nat) : Int) := by push_cast; rfl
    rw [xstrndup, buf_at_natCast, List.getElem?_eq_getElem hlt, hd]
    simp only
    by_cases hz : buf[off] = 0
    · rw [if_pos hz, hz, cstr_cons_zero]; rfl
    · rw [if_neg hz, hcast, ih (off + 1) (by omega), cstr_cons_ne_zero _ hz]
      rfl

theorem cstr_take_of_untruncated :
    ∀ seg : List Nat, 0 ∉ seg.take (seg.length - 1) →
      (cstr seg ++ [0]).take seg.length = seg := by
  intro seg
  induction seg with
  | nil => intro _; rfl
  | cons x xs ih =>
    intro h
    cases xs with
    | nil =>
      by_cases hx : x = 0
      · subst hx; rw [cstr_cons_zero]; rfl
      · rw [cstr_cons_ne_zero _ hx]; rfl
    | cons y ys =>
      simp only [List.length_cons, Nat.add_sub_cancel, List.take_succ_cons, List.mem_cons,
        not_or] at h
      have hx : x ≠ 0 := fun e => h.1 e.symm
      have ih' := ih (by simpa using h.2)
      rw [cstr_cons_ne_zero _ hx]
      simp only [List.length_cons, List.cons_append, List.take_succ_cons] at ih' ⊢
      rw [ih']

theorem cstr_length_of_zero_mem :
    ∀ (k : Nat) (seg : List Nat), 0 ∈ seg.take k → (cstr seg).length < k := by
  intro k
  induction k with
  | zero => intro seg h; simp at h
  | succ k ih =>
    intro seg h
    cases seg with
    | nil => simp at h
    | cons x xs =>
      by_cases hx : x = 0
      · subst hx; rw [cstr_cons_zero]; simp
      · rw [cstr_cons_ne_zero _ hx]
        simp only [List.take_succ_cons, List.mem_cons] at h
        rcases h with h | h
        · exact absurd h.symm hx
        · have := ih xs h
          simp only [List.length_cons]
          omega

theorem memcmp_eq_cstr (magic seg : List Nat) (hl : seg.length = magic.length)
    (hu : 0 ∉ seg.take (seg.length - 1)) :
    memcmp_eq (cstr seg ++ [0]) (magic ++ [0]) magic.length = some (seg == magic) := by
  have ht := cstr_take_of_untruncated seg hu
  rw [hl] at ht
  have hlen : magic.length ≤ (cstr seg ++ [0]).length := by
    have := congrArg List.length ht
    rw [List.length_take, hl] at this
    omega
  unfold memcmp_eq
  rw [if_pos ⟨hlen, by simp⟩, ht, List.take_left' rfl]

theorem memcmp_eq_cstr_truncated (magic seg : List Nat) (hl : seg.length = magic.length)
    (hz : 0 ∈ seg.take (seg.length - 1)) :
    memcmp_eq (cstr seg ++ [0]) (magic ++ [0]) magic.length = none := by
  have h := cstr_length_of_zero_mem _ _ hz
  unfold memcmp_eq
  rw [if_neg]
  rintro ⟨h1, -⟩
  rw [List.length_append, List.length_singleton] at h1
  omega

theorem magic_match_bytewise (buf : List Nat) (toread : Nat) (b : binfmt) (off : Nat)
    (ho : atoi b.offset = (off : Int)) (hm : deref b.mask = 0)
    (hs : b.magic_size = b.magic.length) (hz : 0 ∉ b.magic)
    (hlen : off + b.magic.length ≤ buf.length)
    (hu : 0 ∉ (buf.drop off).take (b.magic.length - 1)) :
    magic_match buf toread b = some (bytewise_match buf off b.magic) := by
  have hstr : strlen b.magic = b.magic.length := by rw [strlen, cstr_of_no_zero hz]
  have hseg : ((buf.drop off).take b.magic.length).length = b.magic.length := by
    rw [List.length_take, List.length_drop]
    omega
  have hu' : 0 ∉ ((buf.drop off).take b.magic.length).take
      (((buf.drop off).take b.magic.length).length - 1) := by
    rw [hseg, List.take_take, Nat.min_eq_left (Nat.sub_le _ _)]
    exact hu
  unfold magic_match
  rw [ho, hstr, xstrndup_in_bounds buf _ off hlen]
  simp only [hm, ne_eq, not_true_eq_false, if_false]
  rw [hs, memcmp_eq_cstr b.magic _ hseg hu']
  rfl

theorem magic_match_truncated (buf : List Nat) (toread : Nat) (b : binfmt) (off : Nat)
    (ho : atoi b.offset = (off : Int)) (hm : deref b.mask = 0)
    (hs : b.magic_size = b.magic.length) (hz : 0 ∉ b.magic)
    (hlen : off + b.magic.length ≤ buf.length)
    (hu : 0 ∈ (buf.drop off).take (b.magic.length - 1)) :
    magic_match buf toread b = none := by
  have hstr : strlen b.magic = b.magic.length := by rw [strlen, cstr_of_no_zero hz]
  have hseg : ((buf.drop off).take b.magic.length).length = b.magic.length := by
    rw [List.length_take, List.length_drop]
    omega
  have hu' : 0 ∈ ((buf.drop off).take b.magic.length).take
      (((buf.drop off).take b.magic.length).length - 1) := by
    rw [hseg, List.take_take, Nat.min_eq_left (Nat.sub_le _ _)]
    exact hu
  unfold magic_match
  rw [ho, hstr, xstrndup_in_bounds buf _ off hlen]
  simp only [hm, ne_eq, not_true_eq_false, if_false]
  rw [hs, memcmp_eq_cstr_truncated b.magic _ hseg hu']

theorem load_all_formats_magic_size (loaded : List binfmt) (b : binfmt)
    (hb : b ∈ load_all_formats loaded) : b.magic_size = b.magic.length := by
  rw [load_all_formats_eq, List.mem_map] at hb
  obtain ⟨r, -, rfl⟩ := hb
  rfl

theorem toread_loop_mono (l : List binfmt) : ∀ t, t ≤ toread_loop l t := by
  induction l with
  | nil => intro t; exact Nat.le_refl _
  | cons b rest ih =>
    intro t
    rw [toread_loop]
    split
    · split
      · exact Nat.le_trans (by omega) (ih _)
      · exact ih t
    · exact ih t

theorem toread_loop_ge (b : binfmt) (hb : streq b.type MAGIC = true) :
    ∀ (l : List binfmt) (t : Nat), b ∈ l →
      (toSizeT (atoi b.offset) + strlen b.magic) % SIZE_MOD ≤ toread_loop l t := by
  intro l
  induction l with
  | nil => intro t h; simp at h
  | cons x rest ih =>
    intro t h
    rw [toread_loop]
    rcases List.mem_cons.mp h with e | e
    · subst e
      rw [if_pos hb]
      split
      · exact toread_loop_mono rest _
      · exact Nat.le_trans (by omega) (toread_loop_mono rest t)
    · split
      · exact ih _ e
      · exact ih _ e

theorem toSizeT_natCast (n : Nat) (h : n < SIZE_MOD) : toSizeT (n : Int) = n := by
  unfold toSizeT
  rw [Int.emod_eq_of_lt (by omega) (by exact_mod_cast h)]
  simp

/-- C17 (string-based extraction agrees with byte-wise comparison for
zero-free patterns).  Registry built from the record with the zero-free magic
`\x7f\x45\x4c\x46` (`magic_size` 4, equal to `strlen`) at offset 0, without
mask; `toread` is 4 and the buffer holds `7f 00 4c 46`, with a zero byte inside
the compared range.  `xstrndup` cuts the segment at that byte, giving the two
bytes `{7f, 00}`, and `memcmp (segment, magic, 4)` is called with a length
that exceeds the segment: the decision of the code is not defined, whereas the
byte-wise comparison of `buf[0 .. 4)` with the magic is defined and false. -/
theorem magic_match_truncated_segment :
    load_all_formats [ex_elf] = [normalize ex_elf] ∧
    streq (normalize ex_elf).type MAGIC = true ∧
    (normalize ex_elf).mask = [] ∧
    (normalize ex_elf).magic = [0x7F, 0x45, 0x4C, 0x46] ∧
    0 ∉ (normalize ex_elf).magic ∧
    strlen (normalize ex_elf).magic = (normalize ex_elf).magic_size ∧
    atoi (normalize ex_elf).offset = 0 ∧
    compute_toread (load_all_formats [ex_elf]) = 4 ∧
    read_buf [0x7F, 0, 0x4C, 0x46] 4 = [0x7F, 0, 0x4C, 0x46] ∧
    xstrndup [0x7F, 0, 0x4C, 0x46] 0 (strlen (normalize ex_elf).magic) = some [0x7F, 0] ∧
    memcmp_eq [0x7F, 0] ((normalize ex_elf).magic ++ [0]) (normalize ex_elf).magic_size
      = none ∧
    magic_match [0x7F, 0, 0x4C, 0x46] 4 (normalize ex_elf) = none ∧
    main world_det_fails [ex_elf] ex_argv 1 (some [0x7F, 0, 0x4C, 0x46]) = none ∧
    bytewise_match [0x7F, 0, 0x4C, 0x46] 0 (normalize ex_elf).magic = false := by
  decide

/-- What the code does decide for a record of the registry of type `magic`
with an empty mask, a decoded magic without zero byte and a non-negative
offset `off` (the sum `off + magic_size` not wrapping around in `size_t`), on
a buffer of `toread` bytes: when no zero byte stands in the compared range
before its last position, the decision is the byte-wise equality of
`buf[off .. off + magic_size)` with the magic; when one does, the segment is
shorter than the length given to `memcmp` and the decision is not defined. -/
theorem magic_match_zero_free_cases (loaded : List binfmt) (b : binfmt) (off : Nat)
    (buf : List Nat)
    (hb : b ∈ load_all_formats loaded) (ht : streq b.type MAGIC = true) (hm : b.mask = [])
    (hz : 0 ∉ b.magic) (ho : atoi b.offset = (off : Int))
    (hw : off + b.magic_size < SIZE_MOD)
    (hbuf : buf.length = compute_toread (load_all_formats loaded)) :
    strlen b.magic = b.magic_size ∧
    off + b.magic_size ≤ compute_toread (load_all_formats loaded) ∧
    (0 ∉ (buf.drop off).take (b.magic_size - 1) →
      magic_match buf (compute_toread (load_all_formats loaded)) b
        = some (bytewise_match buf off b.magic)) ∧
    (0 ∈ (buf.drop off).take (b.magic_size - 1) →
      magic_match buf (compute_toread (load_all_formats loaded)) b = none) := by
  have hs := load_all_formats_magic_size loaded b hb
  have hstr : strlen b.magic = b.magic.length := by rw [strlen, cstr_of_no_zero hz]
  have hge := toread_loop_ge b ht (load_all_formats loaded) 0 hb
  rw [ho, toSizeT_natCast off (by omega), hstr, Nat.mod_eq_of_lt (by omega)] at hge
  have hle : off + b.magic.length ≤ compute_toread (load_all_formats loaded) := hge
  refine ⟨by rw [hstr, hs], by rw [hs]; exact hle, fun hu => ?_, fun hu => ?_⟩
  · rw [hs] at hu
    exact magic_match_bytewise buf _ b off ho (by rw [hm]; rfl) hs hz
      (by rw [hbuf]; exact hle) hu
  · rw [hs] at hu
    exact magic_match_truncated buf _ b off ho (by rw [hm]; rfl) hs hz
      (by rw [hbuf]; exact hle) hu

/-! ## Short files and the range of the masking loop -/

/-- C15 (short files never match falsely).  Registry built from the record
with magic `\x01\x00\x02` (decoded pattern `{1, 0, 2}`, `pattern_length` 3) at
offset 0; target file of length 1 holding the byte 1, so the pattern byte 2 at
position 2 lies beyond the file.  `toread` is 1, `xstrndup` yields the two-byte
segment `{1, 0}`, and `memcmp` over three bytes finds the first two equal and
has to inspect `segment[2]`, outside the segment: whether the record matches
is decided by memory beyond the segment, not by the zero tail of the buffer,
and the run has no defined result.  With the masked record `{0x10, 0x20}` /
`{0xF0, 0xF0}` and a file of length zero, the segment is the single byte
`{0}` and the masking loop, run up to `toread` = 2, accesses `segment[1]`
outside it. -/
theorem short_file_outside_segment :
    load_all_formats [ex_nul_mid] = [normalize ex_nul_mid] ∧
    (normalize ex_nul_mid).magic = [1, 0, 2] ∧
    (normalize ex_nul_mid).magic_size = 3 ∧
    atoi (normalize ex_nul_mid).offset = 0 ∧
    compute_toread (load_all_formats [ex_nul_mid]) = 1 ∧
    read_buf [1] 1 = [1] ∧
    xstrndup [1] 0 (strlen (normalize ex_nul_mid).magic) = some [1, 0] ∧
    memcmp_eq [1, 0] ((normalize ex_nul_mid).magic ++ [0]) 3 = none ∧
    magic_match [1] 1 (normalize ex_nul_mid) = none ∧
    main world_det_fails [ex_nul_mid] ex_argv 1 (some [1]) = none ∧
    compute_toread (load_all_formats [ex_masked]) = 2 ∧
    read_buf [] 2 = [0, 0] ∧
    xstrndup [0, 0] 0 (strlen (normalize ex_masked).magic) = some [0] ∧
    mask_loop_indices ((normalize ex_masked).mask ++ [0]) 2 0 [0] = [0, 1] ∧
    magic_match [0, 0] 2 (normalize ex_masked) = none := by
  decide

/-- C16 (mask application stays inside the record's own data).  Registry built
from the masked record `{0x10, 0x20}` / `{0xF0, 0xF0}` (`pattern_length` 2) and
the record with magic `abcdefgh`, both at offset 0, so `toread` is 8.  For a
target beginning `1A 2B 03 ..` the segment of the masked record is the three
bytes `{0x1A, 0x2B, 0}`; the masking loop runs `i` up to `toread`, entering its
body for `i` = 2 (the terminators of mask and segment) and `i` = 3, where
`segment[3]` lies outside the segment, and the run has no defined result.
With the second record `abc` instead (`toread` = 3) every access is inside its
object and the record matches, the loop having also read `mask[2]` and updated
`segment[2]`. -/
theorem mask_loop_runs_to_toread :
    load_all_formats [ex_masked, ex_long] = [normalize ex_masked, normalize ex_long] ∧
    (normalize ex_masked).magic_size = 2 ∧
    (normalize ex_masked).mask = [0xF0, 0xF0] ∧
    compute_toread (load_all_formats [ex_masked, ex_long]) = 8 ∧
    read_buf [0x1A, 0x2B, 3, 4, 5, 6, 7, 8] 8 = [0x1A, 0x2B, 3, 4, 5, 6, 7, 8] ∧
    xstrndup [0x1A, 0x2B, 3, 4, 5, 6, 7, 8] 0 (strlen (normalize ex_masked).magic)
      = some [0x1A, 0x2B, 0] ∧
    mask_loop_indices ((normalize ex_masked).mask ++ [0]) 8 0 [0x1A, 0x2B, 0] = [0, 1, 2, 3] ∧
    mask_loop ((normalize ex_masked).mask ++ [0]) 8 0 [0x1A, 0x2B, 0] = none ∧
    magic_match [0x1A, 0x2B, 3, 4, 5, 6, 7, 8] 8 (normalize ex_masked) = none ∧
    compute_toread (load_all_formats [ex_masked, ex_abc]) = 3 ∧
    mask_loop_indices ((normalize ex_masked).mask ++ [0]) 3 0 [0x1A, 0x2B, 0] = [0, 1, 2] ∧
    mask_loop ((normalize ex_masked).mask ++ [0]) 3 0 [0x1A, 0x2B, 0] = some [0x10, 0x20, 0] ∧
    magic_match [0x1A, 0x2B, 3] 3 (normalize ex_masked) = some true := by
  decide

theorem xstrndup_some (buf : List Nat) :
    ∀ (n off : Nat) (seg : List Nat), xstrndup buf (off : Int) n = some seg →
      ∃ s, seg = s ++ [0] ∧ s.length ≤ n ∧
        ∀ j : Nat, j < s.length → ∃ c, buf[off + j]? = some c ∧ c ≠ 0 := by
  intro n
  induction n with
  | zero =>
    intro off seg h
    simp only [xstrndup, Option.some.injEq] at h
    exact ⟨[], by simp [← h], by simp, by simp⟩
  | succ n ih =>
    intro off seg h
    have hcast : ((off : Int) + 1) = ((off + 1 : Nat) : Int) := by push_cast; rfl
    rw [xstrndup, buf_at_natCast] at h
    cases hc : buf[off]? with
    | none => rw [hc] at h; simp at h
    | some c =>
      rw [hc] at h
      simp only at h
      by_cases hz : c = 0
      · rw [if_pos hz] at h
        simp only [Option.some.injEq] at h
        exact ⟨[], by simp [← h], by simp, by simp⟩
      · rw [if_neg hz, hcast] at h
        cases hr : xstrndup buf ((off + 1 : Nat) : Int) n with
        | none => rw [hr] at h; simp at h
        | some seg' =>
          rw [hr] at h
          simp only [Option.some.injEq] at h
          obtain ⟨s', hs', hl', hnz'⟩ := ih (off + 1) seg' hr
          refine ⟨c :: s', by rw [← h, hs']; rfl, by simp; omega, ?_⟩
          intro j hj
          cases j with
          | zero => exact ⟨c, by simpa using hc, hz⟩
          | succ k =>
            simp only [List.length_cons] at hj
            obtain ⟨d, hd, hd0⟩ := hnz' k (by omega)
            exact ⟨d, by rw [← hd]; congr 1; omega, hd0⟩

theorem mask_loop_some (mask : List Nat) :
    ∀ (n i : Nat) (seg r : List Nat), mask_loop mask n i seg = some r →
      r.length = seg.length ∧ ∀ j : Nat, seg[j]? = some 0 → r[j]? = some 0 := by
  intro n
  induction n with
  | zero =>
    intro i seg r h
    simp only [mask_loop, Option.some.injEq] at h
    subst h
    exact ⟨rfl, fun _ hj => hj⟩
  | succ n ih =>
    intro i seg r h
    rw [mask_loop] at h
    cases hs : seg[i]? with
    | none => rw [hs] at h; simp at h
    | some s =>
      cases hm : mask[i]? with
      | none => rw [hs, hm] at h; simp at h
      | some m =>
        rw [hs, hm] at h
        simp only at h
        obtain ⟨hlen, hz⟩ := ih (i + 1) _ r h
        refine ⟨by rw [hlen, List.length_set], fun j hj => hz j ?_⟩
        by_cases hji : i = j
        · subst hji
          rw [hs] at hj
          simp only [Option.some.injEq] at hj
          subst hj
          have hlt : i < seg.length := by
            by_contra hge
            rw [List.getElem?_eq_none (by omega)] at hs
            simp at hs
          rw [List.getElem?_set_self hlt]
          simp
        · rw [List.getElem?_set_ne hji]
          exact hj

theorem memcmp_eq_true (n : Nat) (a b : List Nat) (h : memcmp_eq a b n = some true) :
    n ≤ a.length ∧ ∀ j : Nat, j < n → a[j]? = b[j]? := by
  unfold memcmp_eq at h
  split at h
  · rename_i hl
    simp only [Option.some.injEq, beq_iff_eq] at h
    refine ⟨hl.1, fun j hj => ?_⟩
    have h1 : (a.take n)[j]? = (b.take n)[j]? := by rw [h]
    rwa [List.getElem?_take_of_lt hj, List.getElem?_take_of_lt hj] at h1
  · simp at h

theorem read_buf_tail (file : List Nat) (toread j c : Nat) (hj : file.length ≤ j)
    (h : (read_buf file toread)[j]? = some c) : c = 0 := by
  unfold read_buf at h
  have hl : (file.take toread).length ≤ j := by
    rw [List.length_take]
    omega
  rw [List.getElem?_append_right hl] at h
  have := List.getElem?_eq_some.mp h
  obtain ⟨hlt, he⟩ := this
  simp at he
  exact he.symm

/-- Whenever the run of the matcher is defined, a record of which a non-zero
pattern byte lies beyond the end of the file (position `off + i` with `i`
below `magic_size`) is not accepted: the code can accept such a record only
through an access outside an object. -/
theorem magic_match_short_file (file : List Nat) (toread : Nat) (b : binfmt) (off i : Nat)
    (ho : atoi b.offset = (off : Int)) (hs : b.magic_size = b.magic.length)
    (hn : file.length ≤ off + i) (hi : i < b.magic.length) (hne : b.magic[i]? ≠ some 0) :
    magic_match (read_buf file toread) toread b ≠ some true := by
  intro h
  unfold magic_match at h
  rw [ho] at h
  cases hx : xstrndup (read_buf file toread) (off : Int) (strlen b.magic) with
  | none => rw [hx] at h; simp at h
  | some seg =>
    rw [hx] at h
    simp only at h
    obtain ⟨s, rfl, -, hnz⟩ := xstrndup_some _ _ _ _ hx
    have hmasked : ∃ masked, memcmp_eq masked (b.magic ++ [0]) b.magic_size = some true ∧
        masked.length = (s ++ [0]).length ∧
        ∀ j : Nat, (s ++ [0])[j]? = some 0 → masked[j]? = some 0 := by
      by_cases hd : deref b.mask ≠ 0
      · rw [if_pos hd] at h
        cases hml : mask_loop (b.mask ++ [0]) toread 0 (s ++ [0]) with
        | none => rw [hml] at h; simp at h
        | some masked =>
          rw [hml] at h
          obtain ⟨h1, h2⟩ := mask_loop_some _ _ _ _ _ hml
          exact ⟨masked, h, h1, h2⟩
      · rw [if_neg hd] at h
        exact ⟨s ++ [0], h, rfl, fun _ hj => hj⟩
    obtain ⟨masked, hcmp, hlen, hzero⟩ := hmasked
    rw [hs] at hcmp
    obtain ⟨hle, heq⟩ := memcmp_eq_true _ _ _ hcmp
    rw [hlen, List.length_append, List.length_singleton] at hle
    have hterm : masked[s.length]? = some 0 := by
      apply hzero
      rw [List.getElem?_append_right (Nat.le_refl _)]
      simp
    have hil : i < s.length := by
      by_contra hge
      have hiL : i = s.length := by omega
      have h1 := heq i hi
      rw [hiL, hterm, List.getElem?_append_left (by omega)] at h1
      rw [hiL] at hne
      exact hne h1.symm
    obtain ⟨c, hc, hc0⟩ := hnz i hil
    exact hc0 (read_buf_tail file toread (off + i) c hn hc)

/-- Whenever every access of the masking loop is inside its object, the body
is entered for every `i` from the start index up to the bound, which `main`
sets to `toread`, whatever the length of the record's own pattern. -/
theorem mask_loop_indices_of_some (mask : List Nat) :
    ∀ (n i : Nat) (seg r : List Nat), mask_loop mask n i seg = some r →
      mask_loop_indices mask n i seg = List.range' i n := by
  intro n
  induction n with
  | zero => intro i seg r _; rfl
  | succ n ih =>
    intro i seg r h
    rw [mask_loop] at h
    rw [mask_loop_indices]
    cases hs : seg[i]? with
    | none => rw [hs] at h; simp at h
    | some s =>
      cases hm : mask[i]? with
      | none => rw [hs, hm] at h; simp at h
      | some m =>
        rw [hs, hm] at h
        simp only at h
        simp only [ih (i + 1) _ r h, List.range'_succ]

/-- The text `\x41\x42` has 8 characters; its decoding has length 2 and two
escapes were decoded. -/
theorem expand_hex_length_witness :
    strlen [92, 120, 52, 49, 92, 120, 52, 50] = 8 ∧
    (expand_hex [92, 120, 52, 49, 92, 120, 52, 50]).2 = 2 ∧
    expand_hex_escapes [92, 120, 52, 49, 92, 120, 52, 50] = 2 ∧
    (expand_hex [92, 120, 52, 49, 92, 120, 52, 50]).2
      ≤ strlen [92, 120, 52, 49, 92, 120, 52, 50] :=
  ⟨by decide, by decide, by decide,
   (expand_hex_length [92, 120, 52, 49, 92, 120, 52, 50]).1⟩

end RunDetectors
